import Mathlib

/-!
Verification development for the parameter-sweep control script of the
repository (file sweep.py).  The script parses an annotated template input
file, expands operator scan specifications into a Cartesian product of value
combinations, filters combinations that are redundant under the asub1/asub2
swap symmetry, and materializes one task directory plus one manifest row per
surviving combination.

Modelling conventions.  Python strings are modelled as lists of characters
(`Line`), Python int values as `Int` and Python float values as exact
rationals (`ℚ`); the two numeric kinds are kept apart by `PyNum`, mirroring
the isinstance dispatch in the script.  Fallible operations (dictionary and
list indexing, the zero-step range call) are modelled in `Option`, and the
unbounded floating accumulation loop receives an explicit fuel argument:
`none` at fuel zero means the loop has not finished.  The CPython shortest
round-trip rendering of floats is abstracted by a concrete decimal/fraction
rendering (`ratStr`); every claim below depends only on the rendered token
being a single nonempty marker-free word, never on its exact digits.
-/

/-- A Python string, modelled as its list of characters. -/
abbrev Line := List Char

/-- The whitespace class used by the Python str.split and str.strip
defaults. -/
def isPySpace (c : Char) : Bool :=
  c = ' ' || c = '\t' || c = '\n' || c = '\r' || c = '\x0b' || c = '\x0c'

/-- Python s.split(sep) for a single separator character: the list of
(possibly empty) segments between occurrences of sep.  Always nonempty. -/
def splitC (sep : Char) : Line → List Line
  | [] => [[]]
  | c :: cs =>
    if c = sep then [] :: splitC sep cs
    else
      match splitC sep cs with
      | [] => [[c]]
      | h :: t => (c :: h) :: t

/-- Python s.split() with no argument: maximal runs of non-whitespace
characters, empty runs dropped. -/
def pyWords : Line → List Line
  | [] => []
  | c :: cs =>
    if isPySpace c then pyWords cs
    else
      (c :: cs.takeWhile (fun d => !isPySpace d)) ::
        pyWords (cs.dropWhile (fun d => !isPySpace d))
termination_by s => s.length
decreasing_by
  all_goals simp_wf
  all_goals
    have := (List.dropWhile_sublist (l := cs) (fun d => !isPySpace d)).length_le
    omega

/-- Python sep.join for a single-character separator. -/
def joinWith (sep : Char) : List Line → Line
  | [] => []
  | [t] => t
  | t :: ts => t ++ sep :: joinWith sep ts

/-- Python s.strip() (strip whitespace from both ends). -/
def pyStrip (s : Line) : Line :=
  ((s.dropWhile isPySpace).reverse.dropWhile isPySpace).reverse

/-- Python s.strip(",") (strip comma characters from both ends). -/
def stripCommas (s : Line) : Line :=
  ((s.dropWhile (fun c => c = ',')).reverse.dropWhile (fun c => c = ',')).reverse

/-- Decimal digits, most significant first, with an explicit recursion bound
(n itself shrinks by a factor ten per step, so a bound of n + 1 never runs
out). -/
def natStrF : Nat → Nat → Line
  | 0, _ => []
  | fuel + 1, n =>
    if n < 10 then [Char.ofNat (48 + n)]
    else natStrF fuel (n / 10) ++ [Char.ofNat (48 + n % 10)]

/-- Decimal digits of a natural number, most significant first
(str of a nonnegative int). -/
def natStr (n : Nat) : Line := natStrF (n + 1) n

/-- Python str of an int. -/
def intStr (n : Int) : Line :=
  if n < 0 then '-' :: natStr n.natAbs else natStr n.natAbs

/-- A numeric Python value: an int or a float.  Floats are modelled as exact
rationals. -/
inductive PyNum where
  | i : Int → PyNum
  | f : ℚ → PyNum
deriving DecidableEq

/-- The rational magnitude of a value (Python numeric comparison and
arithmetic compare ints and floats by magnitude). -/
def PyNum.toRat : PyNum → ℚ
  | .i n => (n : ℚ)
  | .f q => q

/-- Python + on numbers: int + int stays int, anything involving a float is
a float. -/
def pyAdd : PyNum → PyNum → PyNum
  | .i a, .i b => .i (a + b)
  | a, b => .f (a.toRat + b.toRat)

/-- Python numeric comparison a less-or-equal b. -/
def pyLe (a b : PyNum) : Prop := a.toRat ≤ b.toRat

instance : DecidablePred fun p : PyNum × PyNum => pyLe p.1 p.2 := fun p =>
  inferInstanceAs (Decidable (p.1.toRat ≤ p.2.toRat))

instance (a b : PyNum) : Decidable (pyLe a b) :=
  inferInstanceAs (Decidable (a.toRat ≤ b.toRat))

/-- The tolerance 1e-12 used by the floating range loop. -/
def tol : ℚ := 1 / 10 ^ 12

/-- Rounding to 12 decimal places (Python round(v, 12); the banker tie rule
of CPython is irrelevant here and half-up is used). -/
def round12 (q : ℚ) : ℚ := (⌊q * 10 ^ 12 + 1 / 2⌋ : ℚ) / 10 ^ 12

/-- Python round(v, 12) on a value: round of an int returns the int
unchanged, round of a float rounds to 12 decimals. -/
def pyRound12 : PyNum → PyNum
  | .i n => .i n
  | .f q => .f (round12 q)

/-- Rendering of a float value (abstraction of the CPython float repr; an
integral float prints with a trailing .0, any other rational prints as a
fraction).  Claims use only that the result is one nonempty word without
whitespace or marker characters. -/
def ratStr (q : ℚ) : Line :=
  if q.den = 1 then intStr q.num ++ ['.', '0']
  else intStr q.num ++ '/' :: natStr q.den

/-- Python str of a numeric value. -/
def PyNum.str : PyNum → Line
  | .i n => intStr n
  | .f q => ratStr q

/-- sanitize from sweep.py: convert a numeric value to a string safe for
file names (the identity rendering str(val)). -/
def sanitize (v : PyNum) : Line := PyNum.str v

/-! ## Template parser (parse_input_file) -/

/-- The parameter map built by parse_input_file: entries (name, line index,
field index) in insertion order.  Python dict assignment overwrites, so a
lookup must take the latest entry (see `pmFind`). -/
abbrev ParamMap := List (Line × Nat × Nat)

/-- The guard of the parser on one line:
a marker character is present and a comma occurs after it
(Python: ... in line and "," in line.split("!")[1]). -/
def lineGuard (line : Line) : Bool :=
  line.contains '!' && ((splitC '!' line).tail.headD []).contains ','

/-- The comment segment scanned for names: the text after the first marker
up to the first opening parenthesis
(Python: line.split("!")[1].split("(")[0]). -/
def commentOf (line : Line) : Line :=
  (splitC '(' ((splitC '!' line).tail.headD [])).headD []

/-- The listed parameter names of a line: the comment split on commas, each
segment stripped, empty segments dropped
(Python: [n.strip().strip(",") for n in comment.split(",") if n.strip()]). -/
def namesOf (line : Line) : List Line :=
  ((splitC ',' (commentOf line)).filter
      (fun n => !(pyStrip n).isEmpty)).map (fun n => stripCommas (pyStrip n))

/-- The whitespace-split value tokens preceding the marker
(Python: line.split("!")[0].split()). -/
def valuesOf (line : Line) : List Line :=
  pyWords ((splitC '!' line).headD [])

/-- The parameter-map entries contributed by one line: position pos is
paired with the pos-th listed name whenever pos is below the token count
(Python: for pos, name in enumerate(names): if pos < len(values):
param_map[name] = (idx, pos)). -/
def lineEntries (idx : Nat) (line : Line) : ParamMap :=
  if lineGuard line then
    ((List.range (namesOf line).length).filter
        (fun p => decide (p < (valuesOf line).length))).map
      (fun p => ((namesOf line).getD p [], idx, p))
  else []

/-- The entry stream of the whole file from a starting line index: the loop
for idx, line in enumerate(lines). -/
def parseEntriesFrom (idx : Nat) : List Line → ParamMap
  | [] => []
  | l :: ls => lineEntries idx l ++ parseEntriesFrom (idx + 1) ls

/-- parse_input_file from sweep.py: returns the lines unchanged together
with the parameter map. -/
def parse_input_file (lines : List Line) : List Line × ParamMap :=
  (lines, parseEntriesFrom 0 lines)

/-- Lookup in the parameter map: the latest entry for a name wins, matching
Python dict assignment semantics. -/
def pmFind (pm : ParamMap) (n : Line) : Option (Nat × Nat) :=
  (pm.reverse.find? (fun e => e.1 == n)).map (fun e => e.2)

/-! ## Template rewriting (modify_input) -/

/-- The comment reattached by modify_input: the marker followed by the first
segment after it, or nothing when the line has no marker
(Python: comment = "!" + rest[0] if rest else ""). -/
def cmtOf (parts : List Line) : Line :=
  match parts.tail with
  | [] => []
  | r :: _ => '!' :: r

/-- One iteration of the loop of modify_input, for one (name, value) pair:
split the mapped line at the marker, replace the designated whitespace-split
token before the marker by str(value), and reassemble with single spaces
plus the reattached comment.  Indexing failures (absent name, line or token
index out of range, which raise in Python) yield none. -/
def modifyStep (param_map : ParamMap) (new : List Line)
    (nv : Line × PyNum) : Option (List Line) :=
  match pmFind param_map nv.1 with
  | none => none
  | some (ln, pos) =>
    match new.get? ln with
    | none => none
    | some cur =>
      let parts := splitC '!' cur
      let nums := pyWords (parts.headD [])
      if pos < nums.length then
        some (new.set ln
          (joinWith ' ' (nums.set pos (PyNum.str nv.2)) ++ ' ' :: cmtOf parts))
      else none

/-- modify_input from sweep.py: apply `modifyStep` to every
(name, value) pair of the combination in scan order. -/
def modify_input (lines : List Line) (param_map : ParamMap)
    (combo : List PyNum) (param_names : List Line) : Option (List Line) :=
  (param_names.zip combo).foldlM (modifyStep param_map) lines

/-! ## Range expansion (generate_param_combinations) -/

/-- Python range(a, b, s) for positive step: a, a+s, ... while below b. -/
def pyRangeUp (a b s : Int) : List Int :=
  if _h : 0 < s ∧ a < b then a :: pyRangeUp (a + s) b s else []
termination_by (b - a).toNat
decreasing_by
  simp_wf
  omega

/-- Python range(a, b, s) for negative step: a, a+s, ... while above b. -/
def pyRangeDown (a b s : Int) : List Int :=
  if _h : s < 0 ∧ b < a then a :: pyRangeDown (a + s) b s else []
termination_by (a - b).toNat
decreasing_by
  simp_wf
  omega

/-- Python range(a, b, s) for nonzero step. -/
def pyRange (a b s : Int) : List Int :=
  if 0 < s then pyRangeUp a b s
  else if s < 0 then pyRangeDown a b s
  else []

/-- The floating accumulation loop of generate_param_combinations:
while v <= end + 1e-12: vals.append(round(v, 12)); v += step.
The fuel bounds the number of iterations; none means the loop has not
finished within the given fuel. -/
def floatAccum : Nat → PyNum → ℚ → PyNum → Option (List PyNum)
  | 0, v, e, _ => if v.toRat ≤ e + tol then none else some []
  | n + 1, v, e, st =>
    if v.toRat ≤ e + tol then
      (floatAccum n (pyAdd v st) e st).map (fun l => pyRound12 v :: l)
    else some []

/-- Whether all three bounds of a scan specification are ints
(Python: all(isinstance(v, int) for v in (start, end, step))). -/
def allInt : PyNum → PyNum → PyNum → Bool
  | .i _, .i _, .i _ => true
  | _, _, _ => false

/-- The value list of one scan specification (name, start, end, step):
an inclusive integer range when all bounds are ints (none models the
ValueError of range on a zero step), otherwise the floating accumulation
loop. -/
def specVals (fuel : Nat) (sp : Line × PyNum × PyNum × PyNum) :
    Option (List PyNum) :=
  match sp.2.1, sp.2.2.1, sp.2.2.2 with
  | .i a, .i b, .i s =>
    if s = 0 then none
    else some ((pyRange a (b + if 0 < s then 1 else -1) s).map .i)
  | st, en, stp => floatAccum fuel st en.toRat stp

/-- itertools.product of the per-specification value lists: the first list
is the outermost loop, so the last list varies fastest. -/
def cartProd : List (List PyNum) → List (List PyNum)
  | [] => [[]]
  | l :: ls => l.flatMap (fun x => (cartProd ls).map (fun r => x :: r))

/-- generate_param_combinations from sweep.py: the scan-order name list and
the Cartesian product of the per-specification value lists. -/
def generate_param_combinations (fuel : Nat)
    (scan_specs : List (Line × PyNum × PyNum × PyNum)) :
    Option (List Line × List (List PyNum)) :=
  (scan_specs.mapM (specVals fuel)).map
    (fun lists => (scan_specs.map (fun sp => sp.1), cartProd lists))

/-! ## Symmetry filter and materialization (main) -/

/-- The name asub1. -/
def asub1 : Line := ['a', 's', 'u', 'b', '1']

/-- The name asub2. -/
def asub2 : Line := ['a', 's', 'u', 'b', '2']

/-- The symmetry filter of main: when both asub1 and asub2 are scanned,
keep the combinations whose asub1 value is at most their asub2 value;
otherwise leave the combination list unchanged. -/
def symmetry_filter (param_names : List Line) (combos : List (List PyNum)) :
    List (List PyNum) :=
  if param_names.contains asub1 && param_names.contains asub2 then
    let i1 := param_names.indexOf asub1
    let i2 := param_names.indexOf asub2
    combos.filter (fun c => decide (pyLe (c.getD i1 (.i 0)) (c.getD i2 (.i 0))))
  else combos

/-- The task directory name built in the materialization loop:
task_{idx}_{name1_value1_name2_value2_...}. -/
def folder_name (idx : Nat) (param_names : List Line)
    (combo : List PyNum) : Line :=
  ['t', 'a', 's', 'k', '_'] ++ natStr idx ++ '_' ::
    joinWith '_' ((param_names.zip combo).map (fun nv => nv.1 ++ '_' :: sanitize nv.2))

/-- The manifest rows written by the materialization loop from a given
1-based identifier on: each row is the stringified identifier, the directory
name, and the stringified combination values in scan order. -/
def manifest_rows (param_names : List Line) (idx : Nat) :
    List (List PyNum) → List (List Line)
  | [] => []
  | c :: cs =>
    (natStr idx :: folder_name idx param_names c :: c.map PyNum.str) ::
      manifest_rows param_names (idx + 1) cs

/-- The complete freshly created manifest table: the header row
id, folder, scanned names, followed by one row per materialized task. -/
def manifest_table (param_names : List Line)
    (combos : List (List PyNum)) : List (List Line) :=
  (['i', 'd'] :: ['f', 'o', 'l', 'd', 'e', 'r'] :: param_names) ::
    manifest_rows param_names 1 combos

/-! ## Auxiliary notions used by the correctness statements -/

/-- A character that can sit inside a value token: not whitespace and not
the marker. -/
def charGood (c : Char) : Prop := isPySpace c = false ∧ c ≠ '!'

/-- A well-formed value token: nonempty and made of good characters.
Every token produced by `pyWords` on the text before the marker, and every
rendered numeric value, is of this shape. -/
def tokGood (t : Line) : Prop := t ≠ [] ∧ ∀ c ∈ t, charGood c

/-- All tokens of a list are well formed. -/
def tokensGood (ts : List Line) : Prop := ∀ t ∈ ts, tokGood t

instance (c : Char) : Decidable (charGood c) :=
  inferInstanceAs (Decidable (isPySpace c = false ∧ c ≠ '!'))

instance (t : Line) : Decidable (tokGood t) :=
  inferInstanceAs (Decidable (t ≠ [] ∧ ∀ c ∈ t, charGood c))

instance (ts : List Line) : Decidable (tokensGood ts) :=
  inferInstanceAs (Decidable (∀ t ∈ ts, tokGood t))

/-- Apply a list of (position, token) replacements to a token list, in
order. -/
def setAll (ts : List Line) (subs : List (Nat × Line)) : List Line :=
  subs.foldl (fun a pv => a.set pv.1 pv.2) ts

/-- The shape of a line after at least one substitution by modify_input:
the tokens joined by single spaces, one further space, and the reattached
comment of the original line. -/
def normLine (line : Line) (ts : List Line) : Line :=
  joinWith ' ' ts ++ ' ' :: cmtOf (splitC '!' line)

/-- The (position, rendered value) replacements that a pair list sends to
line i through the parameter map. -/
def subsAt (pm : ParamMap) (i : Nat) (pairs : List (Line × PyNum)) :
    List (Nat × Line) :=
  pairs.filterMap (fun nv =>
    match pmFind pm nv.1 with
    | some lp => if lp.1 = i then some (lp.2, PyNum.str nv.2) else none
    | none => none)

/-- Replacements valid for a given original line: positions inside the token
count and well-formed tokens. -/
def goodSubs (orig : Line) (subs : List (Nat × Line)) : Prop :=
  ∀ pv ∈ subs, pv.1 < (valuesOf orig).length ∧ tokGood pv.2

/-- How a current line relates to its original during the rewriting loop:
untouched, or the normalized form carrying the accumulated substitutions. -/
def lineForm (orig : Line) (subs : List (Nat × Line)) (cur : Line) : Prop :=
  (subs = [] ∧ cur = orig) ∨
    (subs ≠ [] ∧ cur = normLine orig (setAll (valuesOf orig) subs))

/-- Invariant of the rewriting loop: the working copy has the same number of
lines as the original, and every line is in `lineForm` for the substitution
list assigned to it. -/
def StateIs (lines acc : List Line) (f : Nat → List (Nat × Line)) : Prop :=
  acc.length = lines.length ∧
    ∀ i, goodSubs (lines.getD i []) (f i) ∧
      lineForm (lines.getD i []) (f i) (acc.getD i [])

/-- The running value of the floating accumulation loop after k
iterations. -/
def stepIter (v st : PyNum) : Nat → PyNum
  | 0 => v
  | k + 1 => stepIter (pyAdd v st) st k

/-- Swap the entries at two positions of a combination. -/
def swapAt (i1 i2 : Nat) (c : List PyNum) : List PyNum :=
  (c.set i1 (c.getD i2 (.i 0))).set i2 (c.getD i1 (.i 0))

/-- Reference lookup for one line, written from the words of the claim on
the parser: on an annotated line, the k-th listed name corresponds to the
k-th token for k below the token count, names beyond the token count are
ignored, and among several occurrences of the same name the last one wins;
a line failing the guard contributes nothing. -/
def lineLookup (idx : Nat) (line : Line) (n : Line) : Option (Nat × Nat) :=
  if lineGuard line then
    (((List.range (namesOf line).length).filter
          (fun p => decide (p < (valuesOf line).length) &&
            ((namesOf line).getD p [] == n))).getLast?).map
      (fun p => (idx, p))
  else none

/-- Reference lookup over the whole file, written from the words of the
claim on the parser: later lines overwrite earlier ones. -/
def specLookupFrom (idx : Nat) (n : Line) : List Line → Option (Nat × Nat)
  | [] => none
  | l :: ls => (specLookupFrom (idx + 1) n ls).or (lineLookup idx l n)

/-! ## Lemmas about the string primitives -/

theorem splitC_ne_nil (sep : Char) (s : Line) : splitC sep s ≠ [] := by
  induction s with
  | nil => simp [splitC]
  | cons c cs ih =>
    simp only [splitC]
    split
    · simp
    · cases h : splitC sep cs with
      | nil => simp
      | cons hd tl => simp

theorem not_mem_of_mem_splitC {sep : Char} {s t : Line}
    (ht : t ∈ splitC sep s) : sep ∉ t := by
  induction s generalizing t with
  | nil =>
    simp only [splitC, List.mem_singleton] at ht
    simp [ht]
  | cons c cs ih =>
    simp only [splitC] at ht
    split at ht
    · rcases List.mem_cons.1 ht with h | h
      · simp [h]
      · exact ih h
    · rename_i hc
      cases hsp : splitC sep cs with
      | nil => exact absurd hsp (splitC_ne_nil sep cs)
      | cons hd tl =>
        rw [hsp] at ht
        rcases List.mem_cons.1 ht with h | h
        · subst h
          intro hmem
          rcases List.mem_cons.1 hmem with h | h
          · exact hc h.symm
          · exact ih (hsp ▸ List.mem_cons_self hd tl) h
        · exact ih (hsp ▸ List.mem_cons_of_mem hd h)

theorem mem_of_mem_splitC {sep c : Char} {s t : Line}
    (ht : t ∈ splitC sep s) (hc : c ∈ t) : c ∈ s := by
  induction s generalizing t with
  | nil =>
    simp only [splitC, List.mem_singleton] at ht
    subst ht
    simp at hc
  | cons d cs ih =>
    simp only [splitC] at ht
    split at ht
    · rcases List.mem_cons.1 ht with h | h
      · subst h; simp at hc
      · exact List.mem_cons_of_mem d (ih h hc)
    · cases hsp : splitC sep cs with
      | nil => exact absurd hsp (splitC_ne_nil sep cs)
      | cons hd tl =>
        rw [hsp] at ht
        rcases List.mem_cons.1 ht with h | h
        · subst h
          rcases List.mem_cons.1 hc with h | h
          · simp [h]
          · exact List.mem_cons_of_mem d
              (ih (hsp ▸ List.mem_cons_self hd tl) h)
        · exact List.mem_cons_of_mem d
            (ih (hsp ▸ List.mem_cons_of_mem hd h) hc)

theorem splitC_eq_single {sep : Char} {s : Line} (h : sep ∉ s) :
    splitC sep s = [s] := by
  induction s with
  | nil => simp [splitC]
  | cons c cs ih =>
    simp only [splitC]
    rw [if_neg (by simp at h; exact fun hc => h.1 hc.symm)]
    rw [ih (by simp at h; exact h.2)]

theorem splitC_append_cons {sep : Char} (a b : Line) (h : sep ∉ a) :
    splitC sep (a ++ sep :: b) = a :: splitC sep b := by
  induction a with
  | nil => simp [splitC]
  | cons c a' ih =>
    simp only [List.cons_append, splitC, List.append_eq]
    rw [if_neg (by simp at h; exact fun hc => h.1 hc.symm)]
    rw [ih (by simp at h; exact h.2)]

theorem mem_iff_splitC_tail_ne {sep : Char} {s : Line} :
    sep ∈ s ↔ (splitC sep s).tail ≠ [] := by
  induction s with
  | nil => simp [splitC]
  | cons c cs ih =>
    simp only [splitC]
    split
    · rename_i hc
      subst hc
      simp [splitC_ne_nil]
    · rename_i hc
      cases hsp : splitC sep cs with
      | nil => exact absurd hsp (splitC_ne_nil sep cs)
      | cons hd tl =>
        simp only [List.tail_cons]
        rw [List.mem_cons]
        constructor
        · rintro (h | h)
          · exact absurd h.symm hc
          · have := ih.1 h
            rw [hsp] at this
            simpa using this
        · intro h
          refine Or.inr (ih.2 ?_)
          rw [hsp]
          simpa using h

theorem takeWhile_append_all {p : Char → Bool} {t : Line} (r : Line)
    (h : ∀ c ∈ t, p c = true) :
    (t ++ r).takeWhile p = t ++ r.takeWhile p := by
  induction t with
  | nil => simp
  | cons c t' ih =>
    simp only [List.cons_append, List.takeWhile_cons]
    rw [h c (List.mem_cons_self c t'), ih (fun d hd => h d (List.mem_cons_of_mem c hd))]
    simp

theorem dropWhile_append_all {p : Char → Bool} {t : Line} (r : Line)
    (h : ∀ c ∈ t, p c = true) :
    (t ++ r).dropWhile p = r.dropWhile p := by
  induction t with
  | nil => simp
  | cons c t' ih =>
    simp only [List.cons_append, List.dropWhile_cons]
    rw [h c (List.mem_cons_self c t')]
    simp only [if_pos rfl]
    exact ih (fun d hd => h d (List.mem_cons_of_mem c hd))

theorem pyWords_tok {s t : Line} (ht : t ∈ pyWords s) :
    t ≠ [] ∧ ∀ c ∈ t, isPySpace c = false ∧ c ∈ s := by
  induction s using pyWords.induct with
  | case1 => simp [pyWords] at ht
  | case2 c cs hc ih =>
    rw [pyWords, if_pos hc] at ht
    obtain ⟨h1, h2⟩ := ih ht
    exact ⟨h1, fun d hd => ⟨(h2 d hd).1, List.mem_cons_of_mem c (h2 d hd).2⟩⟩
  | case3 c cs hc ih =>
    rw [pyWords, if_neg hc] at ht
    rcases List.mem_cons.1 ht with h | h
    · subst h
      refine ⟨by simp, ?_⟩
      intro d hd
      rcases List.mem_cons.1 hd with h | h
      · subst h
        exact ⟨by simpa using hc, List.mem_cons_self d cs⟩
      · have hp := List.mem_takeWhile_imp h
        have hm := (List.takeWhile_sublist (l := cs) (fun d => !isPySpace d)).mem h
        exact ⟨by simpa using hp, List.mem_cons_of_mem c hm⟩
    · obtain ⟨h1, h2⟩ := ih h
      refine ⟨h1, fun d hd => ⟨(h2 d hd).1, ?_⟩⟩
      have := (List.dropWhile_sublist (l := cs) (fun d => !isPySpace d)).mem (h2 d hd).2
      exact List.mem_cons_of_mem c this

theorem mem_joinWith_space {c : Char} {ts : List Line}
    (h : c ∈ joinWith ' ' ts) : c = ' ' ∨ ∃ t ∈ ts, c ∈ t := by
  induction ts with
  | nil => simp [joinWith] at h
  | cons t ts ih =>
    cases ts with
    | nil =>
      simp only [joinWith] at h
      exact Or.inr ⟨t, List.mem_singleton_self t, h⟩
    | cons t2 ts2 =>
      simp only [joinWith, List.mem_append, List.mem_cons] at h
      rcases h with h | h | h
      · exact Or.inr ⟨t, List.mem_cons_self _ _, h⟩
      · exact Or.inl h
      · rcases ih h with h | ⟨u, hu, hcu⟩
        · exact Or.inl h
        · exact Or.inr ⟨u, List.mem_cons_of_mem t hu, hcu⟩

theorem pyWords_join_space {ts : List Line} (h : tokensGood ts) :
    pyWords (joinWith ' ' ts ++ [' ']) = ts := by
  induction ts with
  | nil =>
    simp [joinWith]
    rw [pyWords]
    norm_num [isPySpace, pyWords]
  | cons t ts ih =>
    obtain ⟨hne, hgood⟩ := h t (List.mem_cons_self t ts)
    obtain ⟨c, t', rfl⟩ : ∃ c t', t = c :: t' := by
      cases t with
      | nil => exact absurd rfl hne
      | cons c t' => exact ⟨c, t', rfl⟩
    have hcg : ∀ d ∈ t', (fun d => !isPySpace d) d = true := by
      intro d hd
      simp [(hgood d (List.mem_cons_of_mem c hd)).1]
    cases ts with
    | nil =>
      simp only [joinWith, List.cons_append]
      rw [pyWords, if_neg (by simp [(hgood c (List.mem_cons_self c t')).1])]
      rw [takeWhile_append_all [' '] hcg, dropWhile_append_all [' '] hcg]
      norm_num [isPySpace]
      rw [pyWords]
      norm_num [isPySpace, pyWords]
    | cons t2 ts2 =>
      simp only [joinWith, List.cons_append, List.append_assoc]
      rw [pyWords, if_neg (by simp [(hgood c (List.mem_cons_self c t')).1])]
      rw [takeWhile_append_all (' ' :: (joinWith ' ' (t2 :: ts2) ++ [' '])) hcg,
          dropWhile_append_all (' ' :: (joinWith ' ' (t2 :: ts2) ++ [' '])) hcg]
      norm_num [isPySpace]
      rw [pyWords]
      norm_num [isPySpace]
      exact ih (fun u hu => h u (List.mem_cons_of_mem _ hu))

/-! ## Lemmas about positional updates -/

theorem getD_set_self {α : Type} {l : List α} {i : Nat} {a d : α}
    (h : i < l.length) : (l.set i a).getD i d = a := by
  rw [List.getD_eq_getElem?_getD, List.getElem?_set_eq_of_lt a h]
  rfl

theorem getD_set_ne {α : Type} {l : List α} {i j : Nat} {a d : α}
    (h : i ≠ j) : (l.set i a).getD j d = l.getD j d := by
  rw [List.getD_eq_getElem?_getD, List.getElem?_set_ne h,
    ← List.getD_eq_getElem?_getD]

theorem setAll_cons (ts : List Line) (pv : Nat × Line)
    (rest : List (Nat × Line)) :
    setAll ts (pv :: rest) = setAll (ts.set pv.1 pv.2) rest := rfl

theorem setAll_append (ts : List Line) (s1 s2 : List (Nat × Line)) :
    setAll ts (s1 ++ s2) = setAll (setAll ts s1) s2 :=
  List.foldl_append _ _ _ _

theorem length_setAll (ts : List Line) (subs : List (Nat × Line)) :
    (setAll ts subs).length = ts.length := by
  induction subs generalizing ts with
  | nil => rfl
  | cons pv rest ih =>
    simp only [setAll, List.foldl_cons] at *
    rw [ih]
    exact List.length_set ts pv.1 pv.2

theorem mem_setAll {t : Line} {ts : List Line} {subs : List (Nat × Line)}
    (h : t ∈ setAll ts subs) : t ∈ ts ∨ ∃ pv ∈ subs, t = pv.2 := by
  induction subs generalizing ts with
  | nil => exact Or.inl h
  | cons pv rest ih =>
    simp only [setAll, List.foldl_cons] at h
    rcases ih h with h2 | ⟨qv, hq, ht⟩
    · rcases List.mem_or_eq_of_mem_set h2 with h3 | h3
      · exact Or.inl h3
      · exact Or.inr ⟨pv, List.mem_cons_self pv rest, h3⟩
    · exact Or.inr ⟨qv, List.mem_cons_of_mem pv hq, ht⟩

theorem getD_setAll_not_mem {ts : List Line} {subs : List (Nat × Line)}
    {p : Nat} (h : ∀ pv ∈ subs, pv.1 ≠ p) :
    (setAll ts subs).getD p [] = ts.getD p [] := by
  induction subs generalizing ts with
  | nil => rfl
  | cons pv rest ih =>
    rw [setAll_cons, ih (fun qv hq => h qv (List.mem_cons_of_mem pv hq))]
    exact getD_set_ne (h pv (List.mem_cons_self pv rest))

theorem getD_setAll_unique {ts : List Line} {subs : List (Nat × Line)}
    {p : Nat} {t : Line} (hmem : (p, t) ∈ subs)
    (huniq : ∀ pv ∈ subs, pv.1 = p → pv.2 = t) (hlen : p < ts.length) :
    (setAll ts subs).getD p [] = t := by
  induction subs generalizing ts with
  | nil => simp at hmem
  | cons pv rest ih =>
    rw [setAll_cons]
    by_cases hp : pv.1 = p
    · have hv : pv.2 = t := huniq pv (List.mem_cons_self pv rest) hp
      by_cases hrest : ∀ qv ∈ rest, qv.1 ≠ p
      · rw [getD_setAll_not_mem hrest, hp, hv, getD_set_self (hp ▸ hlen)]
      · push_neg at hrest
        obtain ⟨qv, hq, hq1⟩ := hrest
        have hq2 : qv.2 = t := huniq qv (List.mem_cons_of_mem pv hq) hq1
        have : (p, t) ∈ rest := by
          have : qv = (p, t) := Prod.ext hq1 hq2
          exact this ▸ hq
        exact ih this (fun qv hq => huniq qv (List.mem_cons_of_mem pv hq))
          (by rw [List.length_set]; exact hlen)
    · rcases List.mem_cons.1 hmem with h | h
      · exact absurd (by rw [← h]) hp
      · exact ih h (fun qv hq => huniq qv (List.mem_cons_of_mem pv hq))
          (by rw [List.length_set]; exact hlen)

/-! ## Good tokens and rendered values -/

theorem digit_good : ∀ d < 10, charGood (Char.ofNat (48 + d)) := by decide

theorem natStrF_chars (fuel : Nat) :
    ∀ n, ∀ c ∈ natStrF fuel n, charGood c := by
  induction fuel with
  | zero => intro n c hc; simp [natStrF] at hc
  | succ fuel ih =>
    intro n c hc
    rw [natStrF] at hc
    split at hc
    · rename_i h
      rw [List.mem_singleton] at hc
      subst hc
      exact digit_good n h
    · rcases List.mem_append.1 hc with h2 | h2
      · exact ih (n / 10) c h2
      · rw [List.mem_singleton] at h2
        subst h2
        exact digit_good _ (Nat.mod_lt n (by omega))

theorem natStr_good (n : Nat) : natStr n ≠ [] ∧ ∀ c ∈ natStr n, charGood c := by
  constructor
  · unfold natStr natStrF
    split <;> simp
  · exact natStrF_chars (n + 1) n

theorem intStr_good (n : Int) : intStr n ≠ [] ∧ ∀ c ∈ intStr n, charGood c := by
  unfold intStr
  split
  · refine ⟨by simp, ?_⟩
    intro c hc
    rcases List.mem_cons.1 hc with h | h
    · subst h; decide
    · exact (natStr_good n.natAbs).2 c h
  · exact natStr_good n.natAbs

theorem str_good (v : PyNum) : tokGood (PyNum.str v) := by
  cases v with
  | i n => exact intStr_good n
  | f q =>
    show tokGood (ratStr q)
    unfold ratStr
    split
    · refine ⟨by simp [(intStr_good q.num).1], ?_⟩
      intro c hc
      rcases List.mem_append.1 hc with h | h
      · exact (intStr_good q.num).2 c h
      · rcases List.mem_cons.1 h with h2 | h2
        · subst h2; decide
        · rw [List.mem_singleton] at h2; subst h2; decide
    · refine ⟨by simp [(intStr_good q.num).1], ?_⟩
      intro c hc
      rcases List.mem_append.1 hc with h | h
      · exact (intStr_good q.num).2 c h
      · rcases List.mem_cons.1 h with h2 | h2
        · subst h2; decide
        · exact (natStr_good q.den).2 c h2

/-! ## Structure of a rewritten line -/

theorem contains_iff {α : Type} [BEq α] [LawfulBEq α] {l : List α} {c : α} :
    l.contains c = true ↔ c ∈ l := by
  simp [List.elem_iff]

theorem bang_not_mem_join {ts : List Line} (h : tokensGood ts) :
    '!' ∉ joinWith ' ' ts ++ [' '] := by
  intro hmem
  rcases List.mem_append.1 hmem with h2 | h2
  · rcases mem_joinWith_space h2 with h3 | ⟨t, ht, hct⟩
    · simp at h3
    · exact ((h t ht).2 '!' hct).2 rfl
  · simp at h2

theorem splitC_normLine_nil {line : Line} {ts : List Line}
    (h : tokensGood ts) (htail : (splitC '!' line).tail = []) :
    splitC '!' (normLine line ts) = [joinWith ' ' ts ++ [' ']] := by
  unfold normLine cmtOf
  rw [htail]
  exact splitC_eq_single (by simpa using bang_not_mem_join h)

theorem splitC_normLine_cons {line : Line} {ts : List Line} {r : Line}
    {rs : List Line} (h : tokensGood ts)
    (htail : (splitC '!' line).tail = r :: rs) :
    splitC '!' (normLine line ts) = [joinWith ' ' ts ++ [' '], r] := by
  unfold normLine cmtOf
  rw [htail]
  have hr : r ∈ splitC '!' line := by
    cases hsp : splitC '!' line with
    | nil => exact absurd hsp (splitC_ne_nil _ _)
    | cons hd tl =>
      rw [hsp] at htail
      simp only [List.tail_cons] at htail
      rw [htail]
      exact List.mem_cons_of_mem hd (List.mem_cons_self r rs)
  have hrb : '!' ∉ r := not_mem_of_mem_splitC hr
  have : joinWith ' ' ts ++ ' ' :: '!' :: r =
      (joinWith ' ' ts ++ [' ']) ++ '!' :: r := by simp
  rw [this, splitC_append_cons _ _ (bang_not_mem_join h), splitC_eq_single hrb]

theorem tailHead_normLine {line : Line} {ts : List Line} (h : tokensGood ts) :
    (splitC '!' (normLine line ts)).tail.headD [] =
      (splitC '!' line).tail.headD [] := by
  cases htail : (splitC '!' line).tail with
  | nil => rw [splitC_normLine_nil h htail]; rfl
  | cons r rs => rw [splitC_normLine_cons h htail]; rfl

theorem valuesOf_normLine {line : Line} {ts : List Line} (h : tokensGood ts) :
    valuesOf (normLine line ts) = ts := by
  unfold valuesOf
  cases htail : (splitC '!' line).tail with
  | nil =>
    rw [splitC_normLine_nil h htail]
    exact pyWords_join_space h
  | cons r rs =>
    rw [splitC_normLine_cons h htail]
    exact pyWords_join_space h

theorem cmtOf_normLine {line : Line} {ts : List Line} (h : tokensGood ts) :
    cmtOf (splitC '!' (normLine line ts)) = cmtOf (splitC '!' line) := by
  cases htail : (splitC '!' line).tail with
  | nil =>
    simp only [cmtOf, splitC_normLine_nil h htail, htail]
    rfl
  | cons r rs =>
    simp only [cmtOf, splitC_normLine_cons h htail, htail]
    rfl

theorem mem_bang_normLine_iff (line : Line) {ts : List Line}
    (h : tokensGood ts) : '!' ∈ normLine line ts ↔ '!' ∈ line := by
  rw [mem_iff_splitC_tail_ne, mem_iff_splitC_tail_ne]
  constructor
  · intro h1
    cases htail : (splitC '!' line).tail with
    | nil => exact absurd (by rw [splitC_normLine_nil h htail]; rfl) h1
    | cons r rs => simp [htail]
  · intro h1
    cases htail : (splitC '!' line).tail with
    | nil => exact absurd htail h1
    | cons r rs =>
      rw [splitC_normLine_cons h htail]
      simp

theorem lineGuard_normLine {line : Line} {ts : List Line} (h : tokensGood ts) :
    lineGuard (normLine line ts) = lineGuard line := by
  unfold lineGuard
  rw [tailHead_normLine h]
  congr 1
  have hiff := mem_bang_normLine_iff line h
  rw [← contains_iff, ← contains_iff] at hiff
  cases hA : (normLine line ts).contains '!' <;>
    cases hB : line.contains '!' <;> simp_all

theorem namesOf_normLine {line : Line} {ts : List Line} (h : tokensGood ts) :
    namesOf (normLine line ts) = namesOf line := by
  unfold namesOf commentOf
  rw [tailHead_normLine h]

theorem lineEntries_normLine {idx : Nat} {line : Line} {ts : List Line}
    (h : tokensGood ts) (hlen : ts.length = (valuesOf line).length) :
    lineEntries idx (normLine line ts) = lineEntries idx line := by
  unfold lineEntries
  rw [lineGuard_normLine h, namesOf_normLine h, valuesOf_normLine h, hlen]

/-! ## Characterization of the parsed parameter map -/

theorem mem_lineEntries_iff {n : Line} {i p idx : Nat} {line : Line} :
    (n, i, p) ∈ lineEntries idx line ↔
      lineGuard line = true ∧ i = idx ∧ p < (namesOf line).length ∧
        p < (valuesOf line).length ∧ n = (namesOf line).getD p [] := by
  unfold lineEntries
  split
  · rename_i hg
    simp only [List.mem_map, List.mem_filter, List.mem_range]
    constructor
    · rintro ⟨q, ⟨hq1, hq2⟩, heq⟩
      rw [Prod.ext_iff] at heq
      obtain ⟨he1, heq2⟩ := heq
      rw [Prod.ext_iff] at heq2
      obtain ⟨he2, he3⟩ := heq2
      simp only at he1 he2 he3
      subst he3
      exact ⟨hg, he2.symm, hq1, of_decide_eq_true hq2, he1.symm⟩
    · rintro ⟨_, rfl, h1, h2, rfl⟩
      exact ⟨p, ⟨h1, decide_eq_true h2⟩, rfl⟩
  · rename_i hg
    simp only [List.not_mem_nil, false_iff]
    rintro ⟨hg2, _⟩
    exact hg hg2

theorem mem_parseEntriesFrom {n : Line} {i p j : Nat} {ls : List Line} :
    (n, i, p) ∈ parseEntriesFrom j ls ↔
      ∃ k, k < ls.length ∧ i = j + k ∧
        (n, i, p) ∈ lineEntries i (ls.getD k []) := by
  induction ls generalizing j with
  | nil => simp [parseEntriesFrom]
  | cons l ls ih =>
    simp only [parseEntriesFrom, List.mem_append]
    constructor
    · rintro (h | h)
      · have hi : i = j := (mem_lineEntries_iff.1 h).2.1
        refine ⟨0, by simp, by omega, ?_⟩
        subst hi
        simpa using h
      · obtain ⟨k, hk, hik, hmem⟩ := ih.1 h
        refine ⟨k + 1, by simpa using hk, by omega, ?_⟩
        simpa [List.getD_cons_succ] using hmem
    · rintro ⟨k, hk, hik, hmem⟩
      cases k with
      | zero =>
        left
        have : i = j := by omega
        subst this
        simpa using hmem
      | succ k' =>
        right
        exact ih.2 ⟨k', by simpa using hk, by omega,
          by simpa [List.getD_cons_succ] using hmem⟩

theorem entry_props {lines : List Line} {n : Line} {i p : Nat}
    (h : (n, i, p) ∈ parseEntriesFrom 0 lines) :
    i < lines.length ∧ p < (namesOf (lines.getD i [])).length ∧
      p < (valuesOf (lines.getD i [])).length ∧
      n = (namesOf (lines.getD i [])).getD p [] ∧
      lineGuard (lines.getD i []) = true := by
  obtain ⟨k, hk, hik, hmem⟩ := mem_parseEntriesFrom.1 h
  have hki : i = k := by omega
  subst hki
  obtain ⟨hg, _, h1, h2, h3⟩ := mem_lineEntries_iff.1 hmem
  exact ⟨hk, h1, h2, h3, hg⟩

theorem entry_name_unique {lines : List Line} {n1 n2 : Line} {i p : Nat}
    (h1 : (n1, i, p) ∈ parseEntriesFrom 0 lines)
    (h2 : (n2, i, p) ∈ parseEntriesFrom 0 lines) : n1 = n2 := by
  obtain ⟨_, _, _, e1, _⟩ := entry_props h1
  obtain ⟨_, _, _, e2, _⟩ := entry_props h2
  rw [e1, e2]

theorem pmFind_mem {pm : ParamMap} {n : Line} {e : Nat × Nat}
    (h : pmFind pm n = some e) : (n, e) ∈ pm := by
  unfold pmFind at h
  cases hf : pm.reverse.find? (fun x => x.1 == n) with
  | none => rw [hf] at h; simp at h
  | some a =>
    rw [hf] at h
    simp at h
    have ha1 : a.1 = n := by simpa using List.find?_some hf
    have ha : a ∈ pm := List.mem_reverse.1 (List.mem_of_find?_eq_some hf)
    have : a = (n, e) := by
      rw [Prod.ext_iff]
      exact ⟨ha1, by simpa using h⟩
    exact this ▸ ha

theorem pmFind_append (pm1 pm2 : ParamMap) (n : Line) :
    pmFind (pm1 ++ pm2) n = (pmFind pm2 n).or (pmFind pm1 n) := by
  unfold pmFind
  rw [List.reverse_append, List.find?_append]
  cases pm2.reverse.find? (fun e => e.1 == n) <;> simp

theorem pmFind_entry_props {lines : List Line} {n : Line} {i p : Nat}
    (h : pmFind (parseEntriesFrom 0 lines) n = some (i, p)) :
    i < lines.length ∧ p < (namesOf (lines.getD i [])).length ∧
      p < (valuesOf (lines.getD i [])).length ∧
      n = (namesOf (lines.getD i [])).getD p [] ∧
      lineGuard (lines.getD i []) = true :=
  entry_props (pmFind_mem h)

/-! ## The rewriting loop of modify_input -/

theorem valuesOf_good (line : Line) : tokensGood (valuesOf line) := by
  intro t ht
  obtain ⟨hne, hchars⟩ := pyWords_tok ht
  refine ⟨hne, fun c hc => ⟨(hchars c hc).1, ?_⟩⟩
  intro hb
  subst hb
  have hmem : '!' ∈ (splitC '!' line).headD [] := (hchars '!' hc).2
  cases hsp : splitC '!' line with
  | nil => exact absurd hsp (splitC_ne_nil _ _)
  | cons hd tl =>
    rw [hsp] at hmem
    exact not_mem_of_mem_splitC (hsp ▸ List.mem_cons_self hd tl) hmem

theorem setAll_good {orig : Line} {subs : List (Nat × Line)}
    (hgood : goodSubs orig subs) : tokensGood (setAll (valuesOf orig) subs) := by
  intro t ht
  rcases mem_setAll ht with h | ⟨pv, hpv, rfl⟩
  · exact valuesOf_good orig t h
  · exact (hgood pv hpv).2

theorem step_line_eq {orig cur : Line} {subs : List (Nat × Line)}
    (hgood : goodSubs orig subs) (hform : lineForm orig subs cur) :
    pyWords ((splitC '!' cur).headD []) = setAll (valuesOf orig) subs ∧
      cmtOf (splitC '!' cur) = cmtOf (splitC '!' orig) := by
  rcases hform with ⟨hnil, rfl⟩ | ⟨_, rfl⟩
  · rw [hnil]
    exact ⟨rfl, rfl⟩
  · have hts : tokensGood (setAll (valuesOf orig) subs) := setAll_good hgood
    exact ⟨valuesOf_normLine hts, cmtOf_normLine hts⟩

theorem get?_eq_getD {α : Type} {l : List α} {i : Nat} (h : i < l.length)
    (d : α) : l.get? i = some (l.getD i d) := by
  rw [List.get?_eq_getElem?, List.getElem?_eq_getElem h,
    List.getD_eq_getElem?_getD, List.getElem?_eq_getElem h]
  rfl

theorem subsAt_nil (pm : ParamMap) (i : Nat) : subsAt pm i [] = [] := rfl

theorem subsAt_cons_eq {pm : ParamMap} {i : Nat} {nv : Line × PyNum}
    {rest : List (Line × PyNum)} {ln pos : Nat}
    (hlp : pmFind pm nv.1 = some (ln, pos)) :
    subsAt pm i (nv :: rest) =
      if ln = i then (pos, PyNum.str nv.2) :: subsAt pm i rest
      else subsAt pm i rest := by
  unfold subsAt
  rw [List.filterMap_cons, hlp]
  by_cases h : ln = i <;> simp [h]

theorem modify_master {lines : List Line} {pm : ParamMap}
    (hpm : pm = parseEntriesFrom 0 lines) :
    ∀ (pairs : List (Line × PyNum)) (acc : List Line)
      (f : Nat → List (Nat × Line)),
      StateIs lines acc f →
      (∀ nv ∈ pairs, (pmFind pm nv.1).isSome) →
      ∃ new, pairs.foldlM (modifyStep pm) acc = some new ∧
        StateIs lines new (fun i => f i ++ subsAt pm i pairs) := by
  intro pairs
  induction pairs with
  | nil =>
    intro acc f hs _
    refine ⟨acc, rfl, ?_⟩
    simpa [subsAt_nil] using hs
  | cons nv rest ih =>
    intro acc f hs hfound
    obtain ⟨lp, hlp⟩ : ∃ lp, pmFind pm nv.1 = some lp := by
      cases hv : pmFind pm nv.1 with
      | none =>
        have := hfound nv (List.mem_cons_self nv rest)
        rw [hv] at this
        simp at this
      | some lp => exact ⟨lp, rfl⟩
    obtain ⟨ln, pos⟩ := lp
    have hprops := pmFind_entry_props (hpm ▸ hlp)
    obtain ⟨hln, _, hpos, _, _⟩ := hprops
    obtain ⟨hlenacc, hstate⟩ := hs
    obtain ⟨hgood, hform⟩ := hstate ln
    have hlnacc : ln < acc.length := by rw [hlenacc]; exact hln
    have hcur : acc.get? ln = some (acc.getD ln []) := get?_eq_getD hlnacc []
    obtain ⟨hnums, hcmt⟩ := step_line_eq hgood hform
    have hnumslen : (pyWords ((splitC '!' (acc.getD ln [])).headD [])).length =
        (valuesOf (lines.getD ln [])).length := by
      rw [hnums, length_setAll]
    -- the step succeeds and produces the normalized line
    have hstep : modifyStep pm acc nv = some (acc.set ln
        (normLine (lines.getD ln [])
          (setAll (valuesOf (lines.getD ln []))
            (f ln ++ [(pos, PyNum.str nv.2)])))) := by
      simp only [modifyStep, hlp, hcur]
      rw [if_pos (by rw [hnumslen]; exact hpos)]
      congr 2
      rw [setAll_append, hnums]
      unfold normLine
      rw [hcmt]
      rfl
    -- the new accumulator satisfies the invariant for the extended subs
    have hs2 : StateIs lines
        (acc.set ln
          (normLine (lines.getD ln [])
            (setAll (valuesOf (lines.getD ln []))
              (f ln ++ [(pos, PyNum.str nv.2)]))))
        (fun i => f i ++ if ln = i then [(pos, PyNum.str nv.2)] else []) := by
      constructor
      · rw [List.length_set]
        exact hlenacc
      · intro i
        by_cases hi : ln = i
        · subst hi
          constructor
          · intro pv hpv
            rcases List.mem_append.1 hpv with h | h
            · exact hgood pv h
            · simp at h
              subst h
              exact ⟨hpos, str_good nv.2⟩
          · right
            constructor
            · simp
            · rw [getD_set_self hlnacc]
              simp
        · obtain ⟨hgood2, hform2⟩ := hstate i
          constructor
          · intro pv hpv
            rcases List.mem_append.1 hpv with h | h
            · exact hgood2 pv h
            · rw [if_neg hi] at h
              simp at h
          · simp only [if_neg hi, List.append_nil]
            rw [getD_set_ne hi]
            exact hform2
    obtain ⟨new, hfold, hnewstate⟩ := ih _ _ hs2
      (fun mv hmv => hfound mv (List.mem_cons_of_mem nv hmv))
    refine ⟨new, ?_, ?_⟩
    · rw [List.foldlM_cons, hstep]
      exact hfold
    · have hfun : (fun i => (f i ++ if ln = i then [(pos, PyNum.str nv.2)] else []) ++
          subsAt pm i rest) = fun i => f i ++ subsAt pm i (nv :: rest) := by
        funext i
        rw [subsAt_cons_eq hlp]
        by_cases hi : ln = i
        · rw [if_pos hi, if_pos hi, List.append_assoc]
          rfl
        · rw [if_neg hi, if_neg hi, List.append_nil]
      rw [← hfun]
      exact hnewstate

/-! ## Symmetry filter helpers -/

theorem symmetry_filter_eq_filter {param_names : List Line}
    (combos : List (List PyNum)) (h1 : asub1 ∈ param_names)
    (h2 : asub2 ∈ param_names) :
    symmetry_filter param_names combos =
      combos.filter (fun c => decide (pyLe
        (c.getD (param_names.indexOf asub1) (.i 0))
        (c.getD (param_names.indexOf asub2) (.i 0)))) := by
  unfold symmetry_filter
  rw [if_pos]
  rw [Bool.and_eq_true, contains_iff, contains_iff]
  exact ⟨h1, h2⟩

theorem symmetry_filter_noop {param_names : List Line}
    (combos : List (List PyNum))
    (h : asub1 ∉ param_names ∨ asub2 ∉ param_names) :
    symmetry_filter param_names combos = combos := by
  unfold symmetry_filter
  rw [if_neg]
  rw [Bool.and_eq_true, contains_iff, contains_iff]
  rintro ⟨m1, m2⟩
  rcases h with h | h
  · exact h m1
  · exact h m2

/-- C6: if both asub1 and asub2 are scanned, the filter of main retains
exactly the combinations whose asub1 value is at most their asub2 value,
discarding the rest; if either is unscanned the combination list is
unchanged; over the product of two copies of the value list 1, 2 it
retains the three combinations (1,1), (1,2), (2,2) and drops (2,1). -/
theorem C6_symmetry_filter_rule :
    (∀ (param_names : List Line) (combos : List (List PyNum)),
      asub1 ∈ param_names → asub2 ∈ param_names →
      symmetry_filter param_names combos =
        combos.filter (fun c => decide (pyLe
          (c.getD (param_names.indexOf asub1) (.i 0))
          (c.getD (param_names.indexOf asub2) (.i 0)))) ∧
      ∀ c, c ∈ symmetry_filter param_names combos ↔
        c ∈ combos ∧ pyLe (c.getD (param_names.indexOf asub1) (.i 0))
          (c.getD (param_names.indexOf asub2) (.i 0))) ∧
    (∀ (param_names : List Line) (combos : List (List PyNum)),
      asub1 ∉ param_names ∨ asub2 ∉ param_names →
      symmetry_filter param_names combos = combos) ∧
    symmetry_filter [asub1, asub2]
        (cartProd [[PyNum.i 1, PyNum.i 2], [PyNum.i 1, PyNum.i 2]]) =
      [[PyNum.i 1, PyNum.i 1], [PyNum.i 1, PyNum.i 2], [PyNum.i 2, PyNum.i 2]] := by
  refine ⟨?_, fun pn combos h => symmetry_filter_noop combos h, by decide⟩
  intro pn combos h1 h2
  refine ⟨symmetry_filter_eq_filter combos h1 h2, ?_⟩
  intro c
  rw [symmetry_filter_eq_filter combos h1 h2, List.mem_filter]
  simp

/-- C6 witness: the filter rule applied to the concrete name list
asub1, asub2 and the product of 1, 2 with 1, 2. -/
theorem C6_witness :
    symmetry_filter [asub1, asub2]
        [[PyNum.i 2, PyNum.i 1]] =
      [[PyNum.i 2, PyNum.i 1]].filter (fun c => decide (pyLe
        (c.getD ([asub1, asub2].indexOf asub1) (.i 0))
        (c.getD ([asub1, asub2].indexOf asub2) (.i 0)))) :=
  ((C6_symmetry_filter_rule.1 [asub1, asub2] [[PyNum.i 2, PyNum.i 1]]
    (by decide) (by decide)).1)

/-! ## Manifest helpers -/

theorem manifest_rows_length (param_names : List Line) (idx : Nat)
    (combos : List (List PyNum)) :
    (manifest_rows param_names idx combos).length = combos.length := by
  induction combos generalizing idx with
  | nil => rfl
  | cons c cs ih =>
    rw [manifest_rows]
    simp [ih]

theorem manifest_rows_getD (param_names : List Line) (idx : Nat)
    (combos : List (List PyNum)) :
    ∀ k, k < combos.length →
      (manifest_rows param_names idx combos).getD k [] =
        natStr (idx + k) ::
          folder_name (idx + k) param_names (combos.getD k []) ::
          (combos.getD k []).map PyNum.str := by
  induction combos generalizing idx with
  | nil => intro k hk; simp at hk
  | cons c cs ih =>
    intro k hk
    cases k with
    | zero => rw [manifest_rows]; rfl
    | succ k' =>
      rw [manifest_rows]
      simp only [List.getD_cons_succ]
      rw [ih (idx + 1) k' (by simp only [List.length_cons] at hk; omega)]
      have harith : idx + 1 + k' = idx + (k' + 1) := by omega
      rw [harith]

/-- C4 fails as stated: the manifest header labels its second column
folder, not directory, already on the one-field manifest for the scanned
name a. -/
theorem C4_counterexample :
    ¬ ((manifest_table [['a']] []).headD [] =
      [['i', 'd'], ['d', 'i', 'r', 'e', 'c', 't', 'o', 'r', 'y'], ['a']]) := by
  decide

/-- C4 (amended: the second header column is labelled folder): the manifest
table is freshly built as the header row id, folder, scanned names, followed
by exactly one row per materialized task in materialization order, the k-th
row holding the stringified 1-based identifier k + 1, the task directory
name, and the stringified combination values in scan order. -/
theorem C4_manifest_shape :
    ∀ (param_names : List Line) (combos : List (List PyNum)),
      manifest_table param_names combos =
        (['i', 'd'] :: ['f', 'o', 'l', 'd', 'e', 'r'] :: param_names) ::
          manifest_rows param_names 1 combos ∧
      (manifest_rows param_names 1 combos).length = combos.length ∧
      ∀ k, k < combos.length →
        (manifest_rows param_names 1 combos).getD k [] =
          natStr (k + 1) ::
            folder_name (k + 1) param_names (combos.getD k []) ::
            (combos.getD k []).map PyNum.str := by
  intro param_names combos
  refine ⟨rfl, manifest_rows_length param_names 1 combos, ?_⟩
  intro k hk
  rw [manifest_rows_getD param_names 1 combos k hk]
  have harith : 1 + k = k + 1 := by omega
  rw [harith]

/-- C4 witness: the amended manifest shape read off on one task with one
scanned field. -/
theorem C4_witness :
    (manifest_rows [['a']] 1 [[PyNum.i 5]]).length = 1 ∧
    (manifest_rows [['a']] 1 [[PyNum.i 5]]).getD 0 [] =
      natStr 1 :: folder_name 1 [['a']] ([[PyNum.i 5]].getD 0 []) ::
        (([[PyNum.i 5]].getD 0 []).map PyNum.str) :=
  ⟨(C4_manifest_shape [['a']] [[PyNum.i 5]]).2.1,
    (C4_manifest_shape [['a']] [[PyNum.i 5]]).2.2 0 (by decide)⟩

/-! ## Cartesian product structure -/

theorem cartProd_length (lists : List (List PyNum)) :
    (cartProd lists).length = (lists.map List.length).prod := by
  induction lists with
  | nil => simp [cartProd]
  | cons l ls ih =>
    simp only [cartProd, List.map_cons, List.prod_cons]
    induction l with
    | nil => simp
    | cons x l' ihl =>
      rw [List.flatMap_cons, List.length_append, ihl, List.length_map, ih]
      simp only [List.length_cons]
      ring

theorem cartProd_single (L : List PyNum) :
    cartProd [L] = L.map (fun y => [y]) := by
  induction L with
  | nil => rfl
  | cons x L ihl =>
    have hstep : cartProd [x :: L] = [[x]] ++ cartProd [L] := by
      show (x :: L).flatMap (fun a => (cartProd []).map (fun r => a :: r)) = _
      rw [List.flatMap_cons]
      rfl
    rw [hstep, ihl]
    rfl

theorem getD_map_lt {α β : Type} (f : α → β) {l : List α} {j : Nat}
    (h : j < l.length) (d : α) (e : β) :
    (l.map f).getD j e = f (l.getD j d) := by
  rw [List.getD_eq_getElem?_getD, List.getElem?_map,
    List.getElem?_eq_getElem h, List.getD_eq_getElem?_getD,
    List.getElem?_eq_getElem h]
  rfl

theorem cartProd_two_getD (L1 L2 : List PyNum) :
    ∀ i j : Nat, i < L1.length → j < L2.length →
      (cartProd [L1, L2]).getD (i * L2.length + j) [] =
        [L1.getD i (.i 0), L2.getD j (.i 0)] := by
  induction L1 with
  | nil => intro i j hi _; simp at hi
  | cons x L1' ih =>
    intro i j hi hj
    have hcp : cartProd [x :: L1', L2] =
        (cartProd [L2]).map (fun r => x :: r) ++ cartProd [L1', L2] := by
      show (x :: L1').flatMap
          (fun a => (cartProd [L2]).map (fun r => a :: r)) = _
      rw [List.flatMap_cons]
      rfl
    have hlenh : ((cartProd [L2]).map (fun r => x :: r)).length = L2.length := by
      rw [List.length_map, cartProd_single, List.length_map]
    cases i with
    | zero =>
      rw [hcp]
      simp only [Nat.zero_mul, Nat.zero_add]
      rw [List.getD_append _ _ _ j (by rw [hlenh]; exact hj)]
      rw [cartProd_single, List.map_map]
      rw [getD_map_lt ((fun r => x :: r) ∘ fun y => [y]) hj (.i 0) []]
      rfl
    | succ i' =>
      rw [hcp]
      have hsm : (i' + 1) * L2.length = i' * L2.length + L2.length := by ring
      rw [List.getD_append_right _ _ _ _ (by rw [hlenh]; omega)]
      rw [hlenh]
      have harith : (i' + 1) * L2.length + j - L2.length = i' * L2.length + j := by
        omega
      rw [harith]
      exact ih i' j (by simpa using hi) hj

/-- C5: whenever every scan specification expands to a value list, the
combination list returned by generate_param_combinations is the Cartesian
product of the per-specification value lists, of length equal to the
product of their lengths, nested so that the last-declared specification
varies fastest: for two lists the entry at index i * n + j is the pair of
the i-th value of the first list and the j-th value of the second. -/
theorem C5_cartesian_product :
    ∀ (fuel : Nat) (scan_specs : List (Line × PyNum × PyNum × PyNum))
      (lists : List (List PyNum)),
      scan_specs.mapM (specVals fuel) = some lists →
      generate_param_combinations fuel scan_specs =
        some (scan_specs.map (fun sp => sp.1), cartProd lists) ∧
      (cartProd lists).length = (lists.map List.length).prod ∧
      ∀ (L1 L2 : List PyNum) (i j : Nat), i < L1.length → j < L2.length →
        (cartProd [L1, L2]).getD (i * L2.length + j) [] =
          [L1.getD i (.i 0), L2.getD j (.i 0)] := by
  intro fuel specs lists hmap
  refine ⟨?_, cartProd_length lists, fun L1 L2 i j hi hj => cartProd_two_getD L1 L2 i j hi hj⟩
  unfold generate_param_combinations
  rw [hmap]
  rfl

/-- C5 witness: two integer specifications of lengths 2 and 2 give the
four combinations in last-varies-fastest order. -/
theorem C5_witness :
    generate_param_combinations 0
        [(['a'], .i 1, .i 2, .i 1), (['b'], .i 5, .i 6, .i 1)] =
      some ([['a'], ['b']],
        cartProd [[PyNum.i 1, PyNum.i 2], [PyNum.i 5, PyNum.i 6]]) ∧
    (cartProd [[PyNum.i 1, PyNum.i 2], [PyNum.i 5, PyNum.i 6]]).length =
      ([[PyNum.i 1, PyNum.i 2], [PyNum.i 5, PyNum.i 6]].map List.length).prod := by
  have hmap : [(['a'], PyNum.i 1, PyNum.i 2, PyNum.i 1),
      (['b'], PyNum.i 5, PyNum.i 6, PyNum.i 1)].mapM (specVals 0) =
      some [[PyNum.i 1, PyNum.i 2], [PyNum.i 5, PyNum.i 6]] := by
    have h1 : specVals 0 (['a'], PyNum.i 1, PyNum.i 2, PyNum.i 1) =
        some [PyNum.i 1, PyNum.i 2] := by
      show (if (1 : Int) = 0 then none
        else some ((pyRange 1 (2 + if (0 : Int) < 1 then 1 else -1) 1).map PyNum.i)) = _
      rw [if_neg (by norm_num), if_pos (by norm_num)]
      rw [show (2 : Int) + 1 = 3 by norm_num]
      rw [pyRange, if_pos (by norm_num)]
      rw [pyRangeUp, dif_pos (by norm_num)]
      rw [pyRangeUp, dif_pos (by norm_num)]
      rw [pyRangeUp, dif_neg (by norm_num)]
      norm_num
    have h2 : specVals 0 (['b'], PyNum.i 5, PyNum.i 6, PyNum.i 1) =
        some [PyNum.i 5, PyNum.i 6] := by
      show (if (1 : Int) = 0 then none
        else some ((pyRange 5 (6 + if (0 : Int) < 1 then 1 else -1) 1).map PyNum.i)) = _
      rw [if_neg (by norm_num), if_pos (by norm_num)]
      rw [show (6 : Int) + 1 = 7 by norm_num]
      rw [pyRange, if_pos (by norm_num)]
      rw [pyRangeUp, dif_pos (by norm_num)]
      rw [pyRangeUp, dif_pos (by norm_num)]
      rw [pyRangeUp, dif_neg (by norm_num)]
      norm_num
    rw [List.mapM_cons, h1, List.mapM_cons, h2]
    rfl
  exact ⟨(C5_cartesian_product 0 _ _ hmap).1, (C5_cartesian_product 0 _ _ hmap).2.1⟩

/-! ## Integer range characterization -/

theorem pyRangeUp_char : ∀ a b s : Int, 0 < s →
    ∃ n : Nat, pyRangeUp a b s =
        (List.range n).map (fun k : Nat => a + (k : Int) * s) ∧
      (∀ k : Nat, k < n → a + k * s < b) ∧ b ≤ a + n * s := by
  intro a b s
  induction a, b, s using pyRangeUp.induct with
  | case1 a b s h ih =>
    intro hs
    obtain ⟨n, hR, hlt, hge⟩ := ih hs
    refine ⟨n + 1, ?_, ?_, ?_⟩
    · rw [pyRangeUp, dif_pos h, hR, List.range_succ_eq_map]
      simp only [List.map_cons, List.map_map]
      congr 1
      · push_cast
        ring
      · apply List.map_congr_left
        intro k _
        simp only [Function.comp_apply]
        push_cast
        ring
    · intro k hk
      cases k with
      | zero => simpa using h.2
      | succ k' =>
        have := hlt k' (by omega)
        calc a + (k' + 1 : Nat) * s = (a + s) + k' * s := by push_cast; ring
        _ < b := this
    · calc b ≤ (a + s) + n * s := hge
      _ = a + (n + 1 : Nat) * s := by push_cast; ring
  | case2 a b s h =>
    intro hs
    refine ⟨0, ?_, by simp, ?_⟩
    · rw [pyRangeUp, dif_neg h]
      simp
    · have hab : ¬ a < b := fun hab => h ⟨hs, hab⟩
      omega

theorem pyRangeDown_char : ∀ a b s : Int, s < 0 →
    ∃ n : Nat, pyRangeDown a b s =
        (List.range n).map (fun k : Nat => a + (k : Int) * s) ∧
      (∀ k : Nat, k < n → b < a + k * s) ∧ a + n * s ≤ b := by
  intro a b s
  induction a, b, s using pyRangeDown.induct with
  | case1 a b s h ih =>
    intro hs
    obtain ⟨n, hR, hlt, hge⟩ := ih hs
    refine ⟨n + 1, ?_, ?_, ?_⟩
    · rw [pyRangeDown, dif_pos h, hR, List.range_succ_eq_map]
      simp only [List.map_cons, List.map_map]
      congr 1
      · push_cast
        ring
      · apply List.map_congr_left
        intro k _
        simp only [Function.comp_apply]
        push_cast
        ring
    · intro k hk
      cases k with
      | zero => simpa using h.2
      | succ k' =>
        have := hlt k' (by omega)
        calc b < (a + s) + k' * s := this
        _ = a + (k' + 1 : Nat) * s := by push_cast; ring
    · calc a + (n + 1 : Nat) * s = (a + s) + n * s := by push_cast; ring
      _ ≤ b := hge
  | case2 a b s h =>
    intro hs
    refine ⟨0, ?_, by simp, ?_⟩
    · rw [pyRangeDown, dif_neg h]
      simp
    · have hab : ¬ b < a := fun hab => h ⟨hs, hab⟩
      omega

/-- C9: for an all-integer scan specification with nonzero step,
generate_param_combinations expands the value list to the inclusive walk
start, start + step, ... in the sign of step, stopping after the last value
that has not passed end (so end itself is included exactly when it is hit);
in particular the specification 1, 5, 2 expands to exactly 1, 3, 5. -/
theorem C9_integer_range :
    (∀ (nm : Line) (a b s : Int) (fuel : Nat), s ≠ 0 →
      ∃ (vals : List PyNum) (n : Nat),
        specVals fuel (nm, .i a, .i b, .i s) = some vals ∧
        vals = (List.range n).map (fun k : Nat => PyNum.i (a + (k : Int) * s)) ∧
        (0 < s → (∀ k : Nat, k < n → a + k * s ≤ b) ∧ b < a + n * s) ∧
        (s < 0 → (∀ k : Nat, k < n → b ≤ a + k * s) ∧ a + n * s < b)) ∧
    specVals 0 ([], .i 1, .i 5, .i 2) = some [.i 1, .i 3, .i 5] := by
  constructor
  · intro nm a b s fuel hs
    rcases lt_or_gt_of_ne hs with hneg | hpos
    · obtain ⟨n, hR, hlt, hge⟩ := pyRangeDown_char a (b - 1) s hneg
      have hsv : specVals fuel (nm, PyNum.i a, PyNum.i b, PyNum.i s) =
          some ((List.range n).map (fun k : Nat => PyNum.i (a + (k : Int) * s))) := by
        show (if s = 0 then none
          else some ((pyRange a (b + if (0 : Int) < s then 1 else -1) s).map PyNum.i)) = _
        rw [if_neg hs, if_neg (by omega), show b + -1 = b - 1 by ring, pyRange,
          if_neg (by omega), if_pos hneg, hR, List.map_map]
        rfl
      refine ⟨_, n, hsv, rfl, fun h0s => absurd h0s (by omega), fun _ => ?_⟩
      refine ⟨fun k hk => by have := hlt k hk; omega, by have := hge; omega⟩
    · obtain ⟨n, hR, hlt, hge⟩ := pyRangeUp_char a (b + 1) s hpos
      have hsv : specVals fuel (nm, PyNum.i a, PyNum.i b, PyNum.i s) =
          some ((List.range n).map (fun k : Nat => PyNum.i (a + (k : Int) * s))) := by
        show (if s = 0 then none
          else some ((pyRange a (b + if (0 : Int) < s then 1 else -1) s).map PyNum.i)) = _
        rw [if_neg hs, if_pos hpos, pyRange, if_pos hpos, hR, List.map_map]
        rfl
      refine ⟨_, n, hsv, rfl, fun _ => ?_, fun hneg => absurd hneg (by omega)⟩
      refine ⟨fun k hk => by have := hlt k hk; omega, by have := hge; omega⟩
  · show (if (2 : Int) = 0 then none
      else some ((pyRange 1 (5 + if (0 : Int) < 2 then 1 else -1) 2).map PyNum.i)) = _
    rw [if_neg (by norm_num), if_pos (by norm_num),
      show (5 : Int) + 1 = 6 by norm_num, pyRange, if_pos (by norm_num)]
    rw [pyRangeUp, dif_pos (by norm_num)]
    rw [pyRangeUp, dif_pos (by norm_num)]
    rw [pyRangeUp, dif_pos (by norm_num)]
    rw [pyRangeUp, dif_neg (by norm_num)]
    norm_num

/-- C9 witness: the general integer-range characterization applied to the
specification 1, 5, 2. -/
theorem C9_witness :
    ∃ (vals : List PyNum) (n : Nat),
      specVals 0 ([], .i 1, .i 5, .i 2) = some vals ∧
      vals = (List.range n).map (fun k : Nat => PyNum.i (1 + (k : Int) * 2)) ∧
      ((0 : Int) < 2 → (∀ k : Nat, k < n → (1 : Int) + k * 2 ≤ 5) ∧
        (5 : Int) < 1 + n * 2) ∧
      ((2 : Int) < 0 → (∀ k : Nat, k < n → (5 : Int) ≤ 1 + k * 2) ∧
        (1 : Int) + n * 2 < 5) :=
  C9_integer_range.1 [] 1 5 2 0 (by norm_num)

/-! ## Floating accumulation characterization -/

theorem toRat_pyAdd (a b : PyNum) : (pyAdd a b).toRat = a.toRat + b.toRat := by
  cases a <;> cases b <;> simp [pyAdd, PyNum.toRat]

theorem toRat_stepIter (v st : PyNum) :
    ∀ k : Nat, (stepIter v st k).toRat = v.toRat + k * st.toRat := by
  intro k
  induction k generalizing v with
  | zero => simp [stepIter]
  | succ k ih =>
    rw [stepIter, ih (pyAdd v st), toRat_pyAdd]
    push_cast
    ring

theorem specVals_float {nm : Line} {s e st : PyNum} (fuel : Nat)
    (h : allInt s e st = false) :
    specVals fuel (nm, s, e, st) = floatAccum fuel s e.toRat st := by
  cases s <;> cases e <;> cases st <;> first
    | rfl
    | simp [allInt] at h

theorem floatAccum_eq {e : ℚ} {st : PyNum} :
    ∀ (n : Nat) (v : PyNum) (fuel : Nat), n ≤ fuel →
      (∀ k : Nat, k < n → v.toRat + k * st.toRat ≤ e + tol) →
      (e + tol < v.toRat + n * st.toRat) →
      floatAccum fuel v e st =
        some ((List.range n).map (fun k => pyRound12 (stepIter v st k))) := by
  intro n
  induction n with
  | zero =>
    intro v fuel _ _ hgt
    have hv : ¬ v.toRat ≤ e + tol := by
      simp only [Nat.cast_zero, zero_mul, add_zero] at hgt
      exact not_le.2 hgt
    cases fuel with
    | zero => rw [floatAccum, if_neg hv]; rfl
    | succ f => rw [floatAccum, if_neg hv]; rfl
  | succ n ih =>
    intro v fuel hfuel hle hgt
    obtain ⟨f, rfl⟩ : ∃ f, fuel = f + 1 := ⟨fuel - 1, by omega⟩
    rw [floatAccum, if_pos (by simpa using hle 0 (by omega))]
    rw [ih (pyAdd v st) f (by omega) ?hle2 ?hgt2]
    case hle2 =>
      intro k hk
      have := hle (k + 1) (by omega)
      rw [toRat_pyAdd]
      push_cast at this ⊢
      linarith
    case hgt2 =>
      rw [toRat_pyAdd]
      push_cast at hgt ⊢
      linarith
    rw [List.range_succ_eq_map, List.map_cons, List.map_map]
    congr 2

theorem exists_crossing (s e st : ℚ) (hst : 0 < st) :
    ∃ n : Nat, (∀ k : Nat, k < n → s + k * st ≤ e + tol) ∧
      e + tol < s + n * st := by
  have harch : ∃ m : Nat, (e + tol - s) / st < m := exists_nat_gt _
  have hex : ∃ m : Nat, e + tol < s + m * st := by
    obtain ⟨m, hm⟩ := harch
    refine ⟨m, ?_⟩
    rw [div_lt_iff₀ hst] at hm
    linarith
  classical
  refine ⟨Nat.find hex, ?_, Nat.find_spec hex⟩
  intro k hk
  have := Nat.find_min hex hk
  linarith [not_lt.1 this]

/-- C2: for a scan specification that is not all-integer and has positive
step, the value list is produced by accumulating from start by step while
the running value stays within end + 1e-12, each appended value rounded to
12 decimals; the number of appended values n is characterized by the
crossing bounds, and any fuel of at least n suffices; in particular the
specification 0.1, 0.3, 0.1 expands to exactly 0.1, 0.2, 0.3 with no
fourth value and the endpoint kept. -/
theorem C2_real_range :
    (∀ (nm : Line) (s e st : PyNum), allInt s e st = false →
      0 < st.toRat →
      ∃ n : Nat,
        (∀ k : Nat, k < n → s.toRat + k * st.toRat ≤ e.toRat + tol) ∧
        e.toRat + tol < s.toRat + n * st.toRat ∧
        ∀ fuel, n ≤ fuel →
          specVals fuel (nm, s, e, st) =
            some ((List.range n).map (fun k => pyRound12 (stepIter s st k)))) ∧
    specVals 3 ([], .f (1 / 10), .f (3 / 10), .f (1 / 10)) =
      some [.f (1 / 10), .f (1 / 5), .f (3 / 10)] := by
  constructor
  · intro nm s e st hint hst
    obtain ⟨n, hle, hgt⟩ := exists_crossing s.toRat e.toRat st.toRat hst
    refine ⟨n, hle, hgt, ?_⟩
    intro fuel hfuel
    rw [specVals_float fuel hint]
    exact floatAccum_eq n s fuel hfuel hle hgt
  · show floatAccum 3 (.f (1 / 10)) (PyNum.toRat (.f (3 / 10))) (.f (1 / 10)) = _
    norm_num [floatAccum, PyNum.toRat, pyAdd, pyRound12, round12, tol]

/-- C2 witness: the real-range characterization applied to the
specification 0.1, 0.3, 0.1. -/
theorem C2_witness :
    ∃ n : Nat,
      (∀ k : Nat, k < n →
        (PyNum.f (1 / 10)).toRat + k * (PyNum.f (1 / 10)).toRat ≤
          (PyNum.f (3 / 10)).toRat + tol) ∧
      (PyNum.f (3 / 10)).toRat + tol <
        (PyNum.f (1 / 10)).toRat + n * (PyNum.f (1 / 10)).toRat ∧
      ∀ fuel, n ≤ fuel →
        specVals fuel ([], .f (1 / 10), .f (3 / 10), .f (1 / 10)) =
          some ((List.range n).map
            (fun k => pyRound12 (stepIter (.f (1 / 10)) (.f (1 / 10)) k))) :=
  C2_real_range.1 [] (.f (1 / 10)) (.f (3 / 10)) (.f (1 / 10)) (by rfl)
    (by norm_num [PyNum.toRat])

/-! ## Termination and divergence of the accumulation loop -/

theorem floatAccum_none {e : ℚ} {st : PyNum} (hst : st.toRat ≤ 0) :
    ∀ (fuel : Nat) (v : PyNum), v.toRat ≤ e + tol →
      floatAccum fuel v e st = none := by
  intro fuel
  induction fuel with
  | zero =>
    intro v hv
    rw [floatAccum, if_pos hv]
  | succ f ih =>
    intro v hv
    rw [floatAccum, if_pos hv]
    rw [ih (pyAdd v st) (by rw [toRat_pyAdd]; linarith)]
    rfl

theorem specVals_int_fuel_free (nm : Line) (a b s : Int) (fuel : Nat) :
    specVals fuel (nm, .i a, .i b, .i s) = specVals 0 (nm, .i a, .i b, .i s) :=
  rfl

theorem floatAccum_empty {e : ℚ} {st v : PyNum} (hv : e + tol < v.toRat)
    (fuel : Nat) : floatAccum fuel v e st = some [] := by
  cases fuel with
  | zero => rw [floatAccum, if_neg (not_le.2 hv)]
  | succ f => rw [floatAccum, if_neg (not_le.2 hv)]

theorem specVals_stable
    (sp : Line × PyNum × PyNum × PyNum)
    (h : allInt sp.2.1 sp.2.2.1 sp.2.2.2 = false →
      0 < sp.2.2.2.toRat ∨ sp.2.2.1.toRat + tol < sp.2.1.toRat) :
    ∃ f0 : Nat, ∀ fuel, f0 ≤ fuel → specVals fuel sp = specVals f0 sp := by
  obtain ⟨nm, s, e, st⟩ := sp
  cases hint : allInt s e st with
  | true =>
    refine ⟨0, fun fuel _ => ?_⟩
    cases s <;> cases e <;> cases st <;> simp [allInt] at hint <;> rfl
  | false =>
    rcases h hint with hpos | hempty
    · obtain ⟨n, hle, hgt⟩ :=
        exists_crossing (PyNum.toRat s) (PyNum.toRat e) (PyNum.toRat st) hpos
      refine ⟨n, fun fuel hfuel => ?_⟩
      rw [specVals_float fuel hint, specVals_float n hint,
        floatAccum_eq n s fuel hfuel hle hgt,
        floatAccum_eq n s n (le_refl n) hle hgt]
    · refine ⟨0, fun fuel _ => ?_⟩
      rw [specVals_float fuel hint, specVals_float 0 hint,
        floatAccum_empty hempty fuel, floatAccum_empty hempty 0]

theorem mapM_specVals_congr (f1 f2 : Nat) :
    ∀ specs : List (Line × PyNum × PyNum × PyNum),
      (∀ sp ∈ specs, specVals f1 sp = specVals f2 sp) →
      specs.mapM (specVals f1) = specs.mapM (specVals f2) := by
  intro specs
  induction specs with
  | nil => intro _; rfl
  | cons sp rest ih =>
    intro h
    rw [List.mapM_cons, List.mapM_cons, h sp (List.mem_cons_self sp rest),
      ih (fun x hx => h x (List.mem_cons_of_mem sp hx))]

theorem spec_list_stable (specs : List (Line × PyNum × PyNum × PyNum))
    (h : ∀ sp ∈ specs, allInt sp.2.1 sp.2.2.1 sp.2.2.2 = false →
      0 < sp.2.2.2.toRat ∨ sp.2.2.1.toRat + tol < sp.2.1.toRat) :
    ∃ f0 : Nat, ∀ sp ∈ specs, ∀ fuel, f0 ≤ fuel →
      specVals fuel sp = specVals f0 sp := by
  induction specs with
  | nil => exact ⟨0, fun sp hsp => by simp at hsp⟩
  | cons sp rest ih =>
    obtain ⟨f1, h1⟩ := specVals_stable sp (h sp (List.mem_cons_self sp rest))
    obtain ⟨f2, h2⟩ := ih (fun x hx => h x (List.mem_cons_of_mem sp hx))
    refine ⟨max f1 f2, ?_⟩
    intro x hx fuel hfuel
    rcases List.mem_cons.1 hx with rfl | hx2
    · rw [h1 fuel (by omega), h1 (max f1 f2) (by omega)]
    · rw [h2 x hx2 fuel (by omega), h2 x hx2 (max f1 f2) (by omega)]

/-- C10: generate_param_combinations terminates (its value is independent
of any fuel bound beyond some threshold) whenever every not-all-integer
specification has positive step or starts beyond end + 1e-12; and for a
not-all-integer specification with nonpositive step whose start is within
end + 1e-12, the accumulation loop never finishes, whatever the fuel: a
positive step (or an initially exhausted range) is a genuine precondition. -/
theorem C10_termination :
    (∀ specs : List (Line × PyNum × PyNum × PyNum),
      (∀ sp ∈ specs, allInt sp.2.1 sp.2.2.1 sp.2.2.2 = false →
        0 < sp.2.2.2.toRat ∨ sp.2.2.1.toRat + tol < sp.2.1.toRat) →
      ∃ f0 : Nat, ∀ fuel, f0 ≤ fuel →
        generate_param_combinations fuel specs =
          generate_param_combinations f0 specs) ∧
    (∀ (nm : Line) (s e st : PyNum), allInt s e st = false →
      st.toRat ≤ 0 → s.toRat ≤ e.toRat + tol →
      ∀ fuel, specVals fuel (nm, s, e, st) = none) := by
  constructor
  · intro specs h
    obtain ⟨f0, h0⟩ := spec_list_stable specs h
    refine ⟨f0, fun fuel hfuel => ?_⟩
    unfold generate_param_combinations
    rw [mapM_specVals_congr fuel f0 specs (fun sp hsp => h0 sp hsp fuel hfuel)]
  · intro nm s e st hint hst hle fuel
    rw [specVals_float fuel hint]
    exact floatAccum_none hst fuel s hle

/-- C10 witness: a float specification with positive step stabilizes, and
the zero-step float specification from 0 to 1 never finishes at fuel 5. -/
theorem C10_witness :
    (∃ f0 : Nat, ∀ fuel, f0 ≤ fuel →
      generate_param_combinations fuel [([], .f 0, .f 1, .f (1 / 2))] =
        generate_param_combinations f0 [([], .f 0, .f 1, .f (1 / 2))]) ∧
    specVals 5 ([], .f 0, .f 1, .f 0) = none := by
  constructor
  · exact C10_termination.1 [([], .f 0, .f 1, .f (1 / 2))]
      (fun sp hsp _ => by
        rcases List.mem_singleton.1 hsp with rfl
        left
        norm_num [PyNum.toRat])
  · exact C10_termination.2 [] (.f 0) (.f 1) (.f 0) (by rfl)
      (by norm_num [PyNum.toRat]) (by norm_num [PyNum.toRat, tol]) 5

/-! ## The parser lookup as a last-wins positional scan (C7) -/

theorem head?_filter {α : Type} (p : α → Bool) (l : List α) :
    (l.filter p).head? = l.find? p := by
  induction l with
  | nil => rfl
  | cons x xs ih =>
    rw [List.filter_cons, List.find?_cons]
    cases hp : p x with
    | true => simp
    | false => simpa using ih

theorem getLast?_filter {α : Type} (p : α → Bool) (l : List α) :
    (l.filter p).getLast? = l.reverse.find? p := by
  rw [List.getLast?_eq_head?_reverse, ← List.filter_reverse, head?_filter]

theorem find?_filter {α : Type} (p q : α → Bool) (l : List α) :
    (l.filter q).find? p = l.find? (fun a => q a && p a) := by
  induction l with
  | nil => rfl
  | cons x xs ih =>
    cases hq : q x <;> cases hp : p x <;>
      simp [List.filter_cons, List.find?_cons, hq, hp, ih]

theorem pmFind_lineEntries (idx : Nat) (line : Line) (n : Line) :
    pmFind (lineEntries idx line) n = lineLookup idx line n := by
  unfold lineEntries lineLookup
  cases hg : lineGuard line with
  | false => rfl
  | true =>
    simp only [eq_self_iff_true, if_true]
    unfold pmFind
    rw [← List.map_reverse, List.find?_map, Option.map_map, ← List.filter_reverse,
      find?_filter, getLast?_filter]
    rfl

theorem pmFind_parseEntriesFrom :
    ∀ (ls : List Line) (j : Nat) (n : Line),
      pmFind (parseEntriesFrom j ls) n = specLookupFrom j n ls := by
  intro ls
  induction ls with
  | nil => intro j n; rfl
  | cons l rest ih =>
    intro j n
    show pmFind (lineEntries j l ++ parseEntriesFrom (j + 1) rest) n = _
    rw [pmFind_append, ih (j + 1) n, pmFind_lineEntries]
    rfl

/-- C7: the positional mapping of the parser, expressed as a refinement:
looking a name up in the parameter map built by parse_input_file gives
exactly what the claim describes, namely a last-wins scan in which an
annotated line pairs its k-th listed name with the k-th whitespace-split
token before the marker for k below the token count, ignores names listed
beyond the token count, and a line without marker or separator contributes
nothing (and is not an error: the parser is total on line lists). -/
theorem C7_parser_positional :
    ∀ (lines : List Line) (n : Line),
      pmFind (parse_input_file lines).2 n = specLookupFrom 0 n lines := by
  intro lines n
  exact pmFind_parseEntriesFrom lines 0 n

/-! ## Membership and distinctness in the Cartesian product (C3) -/

theorem mem_cartProd {lists : List (List PyNum)} {d : List PyNum} :
    d ∈ cartProd lists ↔ d.length = lists.length ∧
      ∀ k, k < lists.length → d.getD k (.i 0) ∈ lists.getD k [] := by
  induction lists generalizing d with
  | nil =>
    show d ∈ [[]] ↔ _
    simp only [List.mem_singleton, List.length_nil]
    constructor
    · rintro rfl
      exact ⟨rfl, fun k hk => by simp at hk⟩
    · rintro ⟨hlen, _⟩
      exact List.length_eq_zero.1 hlen
  | cons l ls ih =>
    show d ∈ l.flatMap (fun x => (cartProd ls).map (fun r => x :: r)) ↔ _
    rw [List.mem_flatMap]
    constructor
    · rintro ⟨x, hx, hd⟩
      rw [List.mem_map] at hd
      obtain ⟨r, hr, rfl⟩ := hd
      obtain ⟨hrlen, hrmem⟩ := ih.1 hr
      refine ⟨by simp [hrlen], ?_⟩
      intro k hk
      cases k with
      | zero => simpa using hx
      | succ k' =>
        simp only [List.getD_cons_succ]
        exact hrmem k' (by simpa using hk)
    · rintro ⟨hlen, hmem⟩
      obtain ⟨x, r, rfl⟩ : ∃ x r, d = x :: r := by
        cases d with
        | nil => simp at hlen
        | cons x r => exact ⟨x, r, rfl⟩
      refine ⟨x, by simpa using hmem 0 (by simp), ?_⟩
      rw [List.mem_map]
      refine ⟨r, ih.2 ⟨by simpa using hlen, ?_⟩, rfl⟩
      intro k hk
      have := hmem (k + 1) (by simpa using hk)
      simpa using this

theorem cartProd_nodup {lists : List (List PyNum)}
    (h : ∀ L ∈ lists, L.Nodup) : (cartProd lists).Nodup := by
  induction lists with
  | nil => simp [cartProd]
  | cons l ls ih =>
    show (l.flatMap (fun x => (cartProd ls).map (fun r => x :: r))).Nodup
    rw [List.nodup_flatMap]
    constructor
    · intro x _
      apply List.Nodup.map
      · intro r1 r2 hr
        simpa using hr
      · exact ih (fun L hL => h L (List.mem_cons_of_mem l hL))
    · have hl : l.Nodup := h l (List.mem_cons_self l ls)
      refine hl.imp ?_
      intro x y hxy
      intro d hdx hdy
      rw [List.mem_map] at hdx hdy
      obtain ⟨r1, _, rfl⟩ := hdx
      obtain ⟨r2, _, heq⟩ := hdy
      have hcons : y = x ∧ r2 = r1 := by simpa using heq
      exact hxy hcons.1.symm

theorem length_of_mem_cartProd {lists : List (List PyNum)}
    {d : List PyNum} (h : d ∈ cartProd lists) : d.length = lists.length :=
  (mem_cartProd.1 h).1

theorem swapAt_length (i1 i2 : Nat) (c : List PyNum) :
    (swapAt i1 i2 c).length = c.length := by
  unfold swapAt
  rw [List.length_set, List.length_set]

theorem swapAt_getD_fst {i1 i2 : Nat} {c : List PyNum} (hne : i1 ≠ i2)
    (h1 : i1 < c.length) :
    (swapAt i1 i2 c).getD i1 (.i 0) = c.getD i2 (.i 0) := by
  unfold swapAt
  rw [getD_set_ne (fun h => hne h.symm), getD_set_self h1]

theorem swapAt_getD_snd {i1 i2 : Nat} {c : List PyNum}
    (h2 : i2 < c.length) :
    (swapAt i1 i2 c).getD i2 (.i 0) = c.getD i1 (.i 0) := by
  unfold swapAt
  rw [getD_set_self (by rw [List.length_set]; exact h2)]

theorem swapAt_getD_other {i1 i2 k : Nat} {c : List PyNum}
    (hk1 : k ≠ i1) (hk2 : k ≠ i2) :
    (swapAt i1 i2 c).getD k (.i 0) = c.getD k (.i 0) := by
  unfold swapAt
  rw [getD_set_ne (fun h => hk2 h.symm), getD_set_ne (fun h => hk1 h.symm)]

theorem set_getD_self {c : List PyNum} {i : Nat} (h : i < c.length) :
    c.set i (c.getD i (.i 0)) = c := by
  apply List.ext_getElem?
  intro k
  rw [List.getElem?_set]
  by_cases hik : i = k
  · subst hik
    rw [if_pos rfl, if_pos h, List.getD_eq_getElem?_getD,
      List.getElem?_eq_getElem h]
    rfl
  · rw [if_neg hik]

theorem swapAt_eq_self {i1 i2 : Nat} {c : List PyNum}
    (h1 : i1 < c.length) (heq : c.getD i1 (.i 0) = c.getD i2 (.i 0)) :
    swapAt i1 i2 c = c := by
  unfold swapAt
  rw [← heq, set_getD_self h1]
  rw [heq]
  by_cases h2 : i2 < c.length
  · exact set_getD_self h2
  · rw [List.set_eq_of_length_le (by omega)]

theorem swapAt_mem_cartProd {lists : List (List PyNum)} {c : List PyNum}
    {i1 i2 : Nat} (hc : c ∈ cartProd lists) (h1 : i1 < lists.length)
    (h2 : i2 < lists.length) (hne : i1 ≠ i2)
    (heq : lists.getD i1 [] = lists.getD i2 []) :
    swapAt i1 i2 c ∈ cartProd lists := by
  obtain ⟨hlen, hmem⟩ := mem_cartProd.1 hc
  rw [mem_cartProd]
  refine ⟨by rw [swapAt_length]; exact hlen, ?_⟩
  intro k hk
  by_cases hk1 : k = i1
  · subst hk1
    rw [swapAt_getD_fst hne (by omega), heq]
    exact hmem i2 h2
  · by_cases hk2 : k = i2
    · subst hk2
      rw [swapAt_getD_snd (by omega), ← heq]
      exact hmem i1 h1
    · rw [swapAt_getD_other hk1 hk2]
      exact hmem k hk

/-! ## Counting class representatives (C3) -/

theorem indexOf_lt_length_of_mem {α : Type} [BEq α] [LawfulBEq α] {a : α}
    {l : List α} (h : a ∈ l) : l.indexOf a < l.length := by
  induction l with
  | nil => simp at h
  | cons x xs ih =>
    rw [List.indexOf_cons]
    cases hx : x == a with
    | true => simp
    | false =>
      have hax : a ≠ x := by
        intro hc
        subst hc
        simp at hx
      have hmem : a ∈ xs := by
        rcases List.mem_cons.1 h with hc | h2
        · exact absurd hc hax
        · exact h2
      simpa using ih hmem

theorem getD_indexOf {α : Type} [BEq α] [LawfulBEq α] {a : α}
    {l : List α} (h : a ∈ l) (d : α) : l.getD (l.indexOf a) d = a := by
  induction l with
  | nil => simp at h
  | cons x xs ih =>
    rw [List.indexOf_cons]
    cases hx : x == a with
    | true =>
      have hx2 : x = a := by simpa using hx
      simpa using hx2
    | false =>
      have hax : a ≠ x := by
        intro hc
        subst hc
        simp at hx
      have hmem : a ∈ xs := by
        rcases List.mem_cons.1 h with hc | h2
        · exact absurd hc hax
        · exact h2
      simpa using ih hmem

theorem countP_single_and {α : Type} [DecidableEq α] (q : α → Bool) (c : α)
    (l : List α) :
    l.countP (fun d => decide (d = c) && q d) =
      if q c then l.count c else 0 := by
  induction l with
  | nil => simp
  | cons x xs ih =>
    rw [List.countP_cons, List.count_cons, ih]
    by_cases hxc : x = c <;> cases hq : q c <;>
      simp_all [beq_iff_eq] <;> omega

theorem countP_pair_and {α : Type} [DecidableEq α] (q : α → Bool) {a b : α}
    (hab : a ≠ b) (l : List α) :
    l.countP (fun d => decide (d = a ∨ d = b) && q d) =
      (if q a then l.count a else 0) + (if q b then l.count b else 0) := by
  induction l with
  | nil => simp
  | cons x xs ih =>
    rw [List.countP_cons, List.count_cons, List.count_cons, ih]
    by_cases hxa : x = a <;> by_cases hxb : x = b <;>
      cases hqa : q a <;> cases hqb : q b <;>
      simp_all [beq_iff_eq] <;> omega

/-- C3 fails as stated: with asub1 scanned over the single value 1 and
asub2 over the single value 0, the only combination (1, 0) is discarded by
the filter and its equivalence class under the swap has no retained
representative at all. -/
theorem C3_counterexample :
    ¬ ((symmetry_filter [asub1, asub2]
        (cartProd [[PyNum.i 1], [PyNum.i 0]])).countP
      (fun d => decide (d = [PyNum.i 1, PyNum.i 0] ∨
        d = swapAt 0 1 [PyNum.i 1, PyNum.i 0])) = 1) := by
  decide

/-- C3 (amended: the asub1 and asub2 value lists must coincide, each value
list must be duplicate-free, and the shared list must not contain two
distinct values of equal magnitude): under these hypotheses, for every
combination of the Cartesian product, exactly one retained combination is
in its equivalence class under swapping the asub1 and asub2 values. -/
theorem C3_symmetry_class :
    ∀ (param_names : List Line) (lists : List (List PyNum)),
      asub1 ∈ param_names → asub2 ∈ param_names →
      lists.length = param_names.length →
      (∀ L ∈ lists, L.Nodup) →
      lists.getD (param_names.indexOf asub1) [] =
        lists.getD (param_names.indexOf asub2) [] →
      (∀ v ∈ lists.getD (param_names.indexOf asub1) [],
        ∀ w ∈ lists.getD (param_names.indexOf asub1) [],
        v.toRat = w.toRat → v = w) →
      ∀ c ∈ cartProd lists,
        (symmetry_filter param_names (cartProd lists)).countP
          (fun d => decide (d = c ∨
            d = swapAt (param_names.indexOf asub1)
              (param_names.indexOf asub2) c)) = 1 := by
  intro pn lists h1 h2 hlen hnodup heq hinj c hc
  have hi1 : pn.indexOf asub1 < pn.length := indexOf_lt_length_of_mem h1
  have hi2 : pn.indexOf asub2 < pn.length := indexOf_lt_length_of_mem h2
  have hne : pn.indexOf asub1 ≠ pn.indexOf asub2 := by
    intro hcontra
    have e1 : pn.getD (pn.indexOf asub1) [] = asub1 := getD_indexOf h1 []
    have e2 : pn.getD (pn.indexOf asub2) [] = asub2 := getD_indexOf h2 []
    rw [hcontra] at e1
    exact absurd (e1.symm.trans e2) (by decide)
  have hi1l : pn.indexOf asub1 < lists.length := by omega
  have hi2l : pn.indexOf asub2 < lists.length := by omega
  have hclen : c.length = lists.length := length_of_mem_cartProd hc
  have hprod : (cartProd lists).Nodup := cartProd_nodup hnodup
  have hmem1 : c.getD (pn.indexOf asub1) (.i 0) ∈
      lists.getD (pn.indexOf asub1) [] := (mem_cartProd.1 hc).2 _ hi1l
  have hmem2 : c.getD (pn.indexOf asub2) (.i 0) ∈
      lists.getD (pn.indexOf asub1) [] := by
    rw [heq]
    exact (mem_cartProd.1 hc).2 _ hi2l
  rw [symmetry_filter_eq_filter _ h1 h2, List.countP_filter]
  rcases lt_trichotomy
    (c.getD (pn.indexOf asub1) (.i 0)).toRat
    (c.getD (pn.indexOf asub2) (.i 0)).toRat with hlt | heqv | hgt
  · -- strictly below: the combination itself is the unique representative
    have hswne : c ≠ swapAt (pn.indexOf asub1) (pn.indexOf asub2) c := by
      intro hceq
      have := swapAt_getD_fst (c := c) hne (by omega)
      rw [← hceq] at this
      rw [this] at hlt
      exact lt_irrefl _ hlt
    rw [countP_pair_and _ hswne]
    have hkc : (decide (pyLe (c.getD (pn.indexOf asub1) (.i 0))
        (c.getD (pn.indexOf asub2) (.i 0)))) = true :=
      decide_eq_true (le_of_lt hlt)
    have hks : (decide (pyLe
        ((swapAt (pn.indexOf asub1) (pn.indexOf asub2) c).getD
          (pn.indexOf asub1) (.i 0))
        ((swapAt (pn.indexOf asub1) (pn.indexOf asub2) c).getD
          (pn.indexOf asub2) (.i 0)))) = false := by
      rw [swapAt_getD_fst hne (by omega), swapAt_getD_snd (by omega)]
      exact decide_eq_false (not_le.2 hlt)
    rw [hkc, hks, List.count_eq_one_of_mem hprod hc]
    simp
  · -- equal magnitudes: the swap fixes the combination
    have hveq : c.getD (pn.indexOf asub1) (.i 0) =
        c.getD (pn.indexOf asub2) (.i 0) := hinj _ hmem1 _ hmem2 heqv
    have hswap : swapAt (pn.indexOf asub1) (pn.indexOf asub2) c = c :=
      swapAt_eq_self (by omega) hveq
    rw [hswap]
    have hcongr : ∀ d ∈ cartProd lists,
        ((decide (d = c ∨ d = c) && decide (pyLe (d.getD (pn.indexOf asub1) (.i 0))
          (d.getD (pn.indexOf asub2) (.i 0)))) = true ↔
        (decide (d = c) && decide (pyLe (d.getD (pn.indexOf asub1) (.i 0))
          (d.getD (pn.indexOf asub2) (.i 0)))) = true) := by
      intro d _
      simp
    rw [List.countP_congr hcongr, countP_single_and]
    rw [decide_eq_true (show pyLe (c.getD (pn.indexOf asub1) (.i 0))
      (c.getD (pn.indexOf asub2) (.i 0)) from le_of_eq heqv),
      List.count_eq_one_of_mem hprod hc]
    simp
  · -- strictly above: the swapped combination is the unique representative
    have hswmem : swapAt (pn.indexOf asub1) (pn.indexOf asub2) c ∈
        cartProd lists := swapAt_mem_cartProd hc hi1l hi2l hne heq
    have hswne : c ≠ swapAt (pn.indexOf asub1) (pn.indexOf asub2) c := by
      intro hceq
      have := swapAt_getD_fst (c := c) hne (by omega)
      rw [← hceq] at this
      rw [this] at hgt
      exact lt_irrefl _ hgt
    rw [countP_pair_and _ hswne]
    have hkc : (decide (pyLe (c.getD (pn.indexOf asub1) (.i 0))
        (c.getD (pn.indexOf asub2) (.i 0)))) = false :=
      decide_eq_false (not_le.2 hgt)
    have hks : (decide (pyLe
        ((swapAt (pn.indexOf asub1) (pn.indexOf asub2) c).getD
          (pn.indexOf asub1) (.i 0))
        ((swapAt (pn.indexOf asub1) (pn.indexOf asub2) c).getD
          (pn.indexOf asub2) (.i 0)))) = true := by
      rw [swapAt_getD_fst hne (by omega), swapAt_getD_snd (by omega)]
      exact decide_eq_true (le_of_lt hgt)
    rw [hkc, hks, List.count_eq_one_of_mem hprod hswmem]
    simp

/-- C3 witness: the amended class-uniqueness statement on the product of
two copies of the value list 1, 2, at the discarded combination (2, 1). -/
theorem C3_witness :
    (symmetry_filter [asub1, asub2]
        (cartProd [[PyNum.i 1, PyNum.i 2], [PyNum.i 1, PyNum.i 2]])).countP
      (fun d => decide (d = [PyNum.i 2, PyNum.i 1] ∨
        d = swapAt ([asub1, asub2].indexOf asub1)
          ([asub1, asub2].indexOf asub2) [PyNum.i 2, PyNum.i 1])) = 1 :=
  C3_symmetry_class [asub1, asub2] [[PyNum.i 1, PyNum.i 2], [PyNum.i 1, PyNum.i 2]]
    (by decide) (by decide) (by decide) (by decide) (by decide)
    (by decide) [PyNum.i 2, PyNum.i 1] (by decide)

/-! ## Consequences of the rewriting invariant (C1, C8) -/

theorem mem_subsAt {pm : ParamMap} {i : Nat} {pairs : List (Line × PyNum)}
    {pv : Nat × Line} :
    pv ∈ subsAt pm i pairs ↔
      ∃ nv ∈ pairs, pmFind pm nv.1 = some (i, pv.1) ∧
        pv.2 = PyNum.str nv.2 := by
  unfold subsAt
  rw [List.mem_filterMap]
  constructor
  · rintro ⟨nv, hnv, hg⟩
    cases hf : pmFind pm nv.1 with
    | none => simp [hf] at hg
    | some lp =>
      simp only [hf] at hg
      by_cases hl : lp.1 = i
      · rw [if_pos hl] at hg
        have hpv : pv = (lp.2, PyNum.str nv.2) := by
          injection hg with h
          exact h.symm
        refine ⟨nv, hnv, ?_, by rw [hpv]⟩
        rw [hf, hpv]
        rw [← hl]
      · rw [if_neg hl] at hg
        simp at hg
  · rintro ⟨nv, hnv, hf, hs⟩
    refine ⟨nv, hnv, ?_⟩
    simp [hf, ← hs]

theorem modify_input_spec {lines : List Line} (combo : List PyNum)
    {param_names : List Line}
    (hfound : ∀ n ∈ param_names,
      (pmFind (parseEntriesFrom 0 lines) n).isSome) :
    ∃ new,
      modify_input lines (parseEntriesFrom 0 lines) combo param_names =
        some new ∧
      StateIs lines new
        (fun i => subsAt (parseEntriesFrom 0 lines) i
          (param_names.zip combo)) := by
  have hinit : StateIs lines lines (fun _ => []) :=
    ⟨rfl, fun i => ⟨fun pv hpv => by simp at hpv, Or.inl ⟨rfl, rfl⟩⟩⟩
  obtain ⟨new, hfold, hstate⟩ := modify_master rfl (param_names.zip combo)
    lines (fun _ => []) hinit
    (fun nv hnv => hfound nv.1 (List.of_mem_zip hnv).1)
  refine ⟨new, hfold, ?_⟩
  have hfeq : (fun i => ([] : List (Nat × Line)) ++
      subsAt (parseEntriesFrom 0 lines) i (param_names.zip combo)) =
      fun i => subsAt (parseEntriesFrom 0 lines) i (param_names.zip combo) :=
    funext fun i => List.nil_append _
  exact hfeq ▸ hstate

/-- C8 fails as stated: on the template line 1 ! a, b ! c, which carries a
second marker inside its comment, rewriting the field a drops everything
beyond the second marker instead of reattaching the whole post-marker text
verbatim: the character c of the original comment is absent from the
rewritten line. -/
theorem C8_counterexample :
    modify_input [['1', ' ', '!', ' ', 'a', ',', ' ', 'b', ' ', '!', ' ', 'c']]
        (parse_input_file
          [['1', ' ', '!', ' ', 'a', ',', ' ', 'b', ' ', '!', ' ', 'c']]).2
        [.i 2] [['a']] =
      some [['2', ' ', '!', ' ', 'a', ',', ' ', 'b', ' ']] ∧
    'c' ∈ ['1', ' ', '!', ' ', 'a', ',', ' ', 'b', ' ', '!', ' ', 'c'] ∧
    'c' ∉ ['2', ' ', '!', ' ', 'a', ',', ' ', 'b', ' '] := by
  refine ⟨?_, by decide, by decide⟩
  have hpm : (parse_input_file
      [['1', ' ', '!', ' ', 'a', ',', ' ', 'b', ' ', '!', ' ', 'c']]).2 =
      [(['a'], 0, 0)] := by
    simp +decide [parse_input_file, parseEntriesFrom, lineEntries, lineGuard,
      namesOf, valuesOf, commentOf, splitC, pyWords, isPySpace, pyStrip,
      stripCommas]
  rw [hpm]
  have hstep : modifyStep [(['a'], 0, 0)]
      [['1', ' ', '!', ' ', 'a', ',', ' ', 'b', ' ', '!', ' ', 'c']]
      (['a'], .i 2) =
      some [['2', ' ', '!', ' ', 'a', ',', ' ', 'b', ' ']] := by
    simp +decide [modifyStep, pmFind, splitC, pyWords, isPySpace, cmtOf,
      joinWith, PyNum.str, intStr, natStr, natStrF]
  show List.foldlM (modifyStep [(['a'], 0, 0)])
      [['1', ' ', '!', ' ', 'a', ',', ' ', 'b', ' ', '!', ' ', 'c']]
      [(['a'], PyNum.i 2)] = _
  rw [List.foldlM_cons, hstep]
  rfl

/-- C8 (amended: the reattached comment is the segment of the line between
the first marker and the next marker, the whole remainder when the marker
occurs once; text beyond a second marker is dropped): with the field map
produced by parsing the lines and every scanned name present in it,
modify_input changes only the lines at indices named by the scanned fields'
map entries, preserves the token count of every line, replaces only the
designated tokens among the whitespace-split tokens preceding the marker,
leaving every other token's value unchanged, and reattaches the first
post-marker segment verbatim. -/
theorem C8_rewrite_frame :
    ∀ (lines : List Line) (combo : List PyNum) (param_names : List Line),
      (∀ n ∈ param_names,
        (pmFind (parse_input_file lines).2 n).isSome) →
      ∃ new,
        modify_input lines (parse_input_file lines).2 combo param_names =
          some new ∧
        new.length = lines.length ∧
        (∀ i, (∀ n ∈ param_names, ∀ e,
            pmFind (parse_input_file lines).2 n ≠ some (i, e)) →
          new.getD i [] = lines.getD i []) ∧
        (∀ i, (valuesOf (new.getD i [])).length =
          (valuesOf (lines.getD i [])).length) ∧
        (∀ i pos, pos < (valuesOf (lines.getD i [])).length →
          (∀ n ∈ param_names,
            pmFind (parse_input_file lines).2 n ≠ some (i, pos)) →
          (valuesOf (new.getD i [])).getD pos [] =
            (valuesOf (lines.getD i [])).getD pos []) ∧
        (∀ i, (splitC '!' (new.getD i [])).tail.headD [] =
          (splitC '!' (lines.getD i [])).tail.headD []) := by
  intro lines combo param_names hfound
  obtain ⟨new, hmod, hlen, hstate⟩ := modify_input_spec combo hfound
  refine ⟨new, hmod, hlen, ?_, ?_, ?_, ?_⟩
  · -- untouched lines
    intro i hnone
    obtain ⟨_, hform⟩ := hstate i
    rcases hform with ⟨_, hcur⟩ | ⟨hne, _⟩
    · exact hcur
    · exfalso
      obtain ⟨pv, hpv⟩ := List.exists_mem_of_ne_nil _ hne
      obtain ⟨nv, hnv, hf, _⟩ := mem_subsAt.1 hpv
      exact hnone nv.1 (List.of_mem_zip hnv).1 pv.1 hf
  · -- token counts
    intro i
    obtain ⟨hgood, hform⟩ := hstate i
    rcases hform with ⟨_, hcur⟩ | ⟨_, hcur⟩
    · rw [hcur]
    · rw [hcur, valuesOf_normLine (setAll_good hgood), length_setAll]
  · -- untouched tokens
    intro i pos hpos hnone
    obtain ⟨hgood, hform⟩ := hstate i
    rcases hform with ⟨_, hcur⟩ | ⟨_, hcur⟩
    · rw [hcur]
    · rw [hcur, valuesOf_normLine (setAll_good hgood)]
      apply getD_setAll_not_mem
      intro pv hpv
      obtain ⟨nv, hnv, hf, _⟩ := mem_subsAt.1 hpv
      intro hcontra
      exact hnone nv.1 (List.of_mem_zip hnv).1 (hcontra ▸ hf)
  · -- first post-marker segment
    intro i
    obtain ⟨hgood, hform⟩ := hstate i
    rcases hform with ⟨_, hcur⟩ | ⟨_, hcur⟩
    · rw [hcur]
    · rw [hcur, tailHead_normLine (setAll_good hgood)]

/-- C8 witness: the amended frame statement on the single line
10 20 ! a, b with the field a set to 7: line count and token count are
kept, the token of b is untouched, and the comment segment is preserved. -/
theorem C8_witness :
    ∃ new,
      modify_input [['1', '0', ' ', '2', '0', ' ', '!', ' ', 'a', ',', ' ', 'b']]
          (parse_input_file
            [['1', '0', ' ', '2', '0', ' ', '!', ' ', 'a', ',', ' ', 'b']]).2
          [.i 7] [['a']] = some new ∧
      new.length = 1 ∧
      (∀ i, (∀ n ∈ ([['a']] : List Line), ∀ e,
          pmFind (parse_input_file
            [['1', '0', ' ', '2', '0', ' ', '!', ' ', 'a', ',', ' ', 'b']]).2 n ≠
            some (i, e)) →
        new.getD i [] =
          [['1', '0', ' ', '2', '0', ' ', '!', ' ', 'a', ',', ' ', 'b']].getD i []) ∧
      (∀ i, (valuesOf (new.getD i [])).length =
        (valuesOf
          ([['1', '0', ' ', '2', '0', ' ', '!', ' ', 'a', ',', ' ', 'b']].getD i [])).length) ∧
      (∀ i pos, pos < (valuesOf
          ([['1', '0', ' ', '2', '0', ' ', '!', ' ', 'a', ',', ' ', 'b']].getD i [])).length →
        (∀ n ∈ ([['a']] : List Line),
          pmFind (parse_input_file
            [['1', '0', ' ', '2', '0', ' ', '!', ' ', 'a', ',', ' ', 'b']]).2 n ≠
            some (i, pos)) →
        (valuesOf (new.getD i [])).getD pos [] =
          (valuesOf
            ([['1', '0', ' ', '2', '0', ' ', '!', ' ', 'a', ',', ' ', 'b']].getD i [])).getD pos []) ∧
      (∀ i, (splitC '!' (new.getD i [])).tail.headD [] =
        (splitC '!'
          ([['1', '0', ' ', '2', '0', ' ', '!', ' ', 'a', ',', ' ', 'b']].getD i [])).tail.headD []) := by
  have h := C8_rewrite_frame
    [['1', '0', ' ', '2', '0', ' ', '!', ' ', 'a', ',', ' ', 'b']]
    [.i 7] [['a']] ?hf
  case hf =>
    intro n hn
    rcases List.mem_singleton.1 hn with rfl
    simp +decide [parse_input_file, parseEntriesFrom, lineEntries, lineGuard,
      namesOf, valuesOf, commentOf, splitC, pyWords, isPySpace, pyStrip,
      stripCommas, pmFind]
  obtain ⟨new, h1, h2, h3, h4, h5, h6⟩ := h
  exact ⟨new, h1, by rw [h2]; rfl, h3, h4, h5, h6⟩

/-! ## Round trip (C1) -/

theorem getD_eq_getElem {α : Type} {l : List α} {i : Nat} (h : i < l.length)
    (d : α) : l.getD i d = l[i] := by
  rw [List.getD_eq_getElem?_getD, List.getElem?_eq_getElem h]
  rfl

theorem zip_pair_mem {param_names : List Line} {combo : List PyNum} {k : Nat}
    (hk : k < param_names.length) (hlen : param_names.length = combo.length) :
    (param_names.getD k [], combo.getD k (.i 0)) ∈ param_names.zip combo := by
  have hkz : k < (param_names.zip combo).length := by
    rw [List.length_zip]
    omega
  have hz := @List.getElem_zip _ _ param_names combo k hkz
  have hmem : (param_names.zip combo)[k] ∈ param_names.zip combo :=
    List.getElem_mem hkz
  rw [hz] at hmem
  rw [getD_eq_getElem hk, getD_eq_getElem (by omega)]
  exact hmem

theorem mem_zip_index {param_names : List Line} {combo : List PyNum}
    {nv : Line × PyNum} (h : nv ∈ param_names.zip combo) :
    ∃ j, j < param_names.length ∧ j < combo.length ∧
      nv.1 = param_names.getD j [] ∧ nv.2 = combo.getD j (.i 0) := by
  obtain ⟨j, hj, hget⟩ := List.getElem_of_mem h
  have hjn : j < param_names.length := by
    rw [List.length_zip] at hj
    omega
  have hjc : j < combo.length := by
    rw [List.length_zip] at hj
    omega
  have hz := @List.getElem_zip _ _ param_names combo j hj
  rw [hz] at hget
  refine ⟨j, hjn, hjc, ?_, ?_⟩
  · rw [getD_eq_getElem hjn, ← hget]
  · rw [getD_eq_getElem hjc, ← hget]

theorem nodup_getD_inj {param_names : List Line} (hnd : param_names.Nodup)
    {j k : Nat} (hj : j < param_names.length) (hk : k < param_names.length)
    (h : param_names.getD j [] = param_names.getD k []) : j = k := by
  rw [getD_eq_getElem hj, getD_eq_getElem hk] at h
  exact (hnd.getElem_inj_iff).1 h

theorem parseEntriesFrom_congr :
    ∀ (j : Nat) (l1 l2 : List Line), l1.length = l2.length →
      (∀ k, lineEntries (j + k) (l1.getD k []) =
        lineEntries (j + k) (l2.getD k [])) →
      parseEntriesFrom j l1 = parseEntriesFrom j l2 := by
  intro j l1
  induction l1 generalizing j with
  | nil =>
    intro l2 hlen _
    rw [List.length_nil] at hlen
    rw [(List.length_eq_zero.1 hlen.symm)]
  | cons x xs ih =>
    intro l2 hlen hk
    obtain ⟨y, ys, rfl⟩ : ∃ y ys, l2 = y :: ys := by
      cases l2 with
      | nil => simp at hlen
      | cons y ys => exact ⟨y, ys, rfl⟩
    show lineEntries j x ++ parseEntriesFrom (j + 1) xs = _
    have h0 := hk 0
    simp only [List.getD_cons_zero, Nat.add_zero] at h0
    rw [h0]
    congr 1
    refine ih (j + 1) ys (by simpa using hlen) ?_
    intro k
    have := hk (k + 1)
    simp only [List.getD_cons_succ] at this
    have harith : j + (k + 1) = j + 1 + k := by omega
    rw [harith] at this
    exact this

/-- C1: starting from any template line list, for every duplicate-free
scanned-name selection present in the parsed field map and every matching
value assignment, rewriting with modify_input succeeds, re-parsing the
rewritten lines rebuilds exactly the same parameter-map entry stream, and
in the rewritten lines the token at each scanned name's (line, position)
is the rendered string of that name's value in the combination. -/
theorem C1_round_trip :
    ∀ (lines : List Line) (param_names : List Line) (combo : List PyNum),
      param_names.Nodup →
      param_names.length = combo.length →
      (∀ n ∈ param_names,
        (pmFind (parse_input_file lines).2 n).isSome) →
      ∃ new,
        modify_input lines (parse_input_file lines).2 combo param_names =
          some new ∧
        (parse_input_file new).2 = (parse_input_file lines).2 ∧
        ∀ k, k < param_names.length → ∀ ln pos,
          pmFind (parse_input_file lines).2 (param_names.getD k []) =
            some (ln, pos) →
          (valuesOf (new.getD ln [])).getD pos [] =
            PyNum.str (combo.getD k (.i 0)) := by
  intro lines param_names combo hnd hlen hfound
  obtain ⟨new, hmod, hlenacc, hstate⟩ := modify_input_spec combo hfound
  refine ⟨new, hmod, ?_, ?_⟩
  · -- the rewritten lines parse to the same entry stream
    show parseEntriesFrom 0 new = parseEntriesFrom 0 lines
    refine parseEntriesFrom_congr 0 new lines hlenacc ?_
    intro k
    obtain ⟨hgood, hform⟩ := hstate k
    rcases hform with ⟨_, hcur⟩ | ⟨_, hcur⟩
    · rw [hcur]
    · rw [hcur, lineEntries_normLine (setAll_good hgood) (length_setAll _ _)]
  · -- substituted tokens carry the rendered values
    intro k hk ln pos hfind
    obtain ⟨hgood, hform⟩ := hstate ln
    have hpair : (param_names.getD k [], combo.getD k (.i 0)) ∈
        param_names.zip combo := zip_pair_mem hk hlen
    have hsub : (pos, PyNum.str (combo.getD k (.i 0))) ∈
        subsAt (parse_input_file lines).2 ln (param_names.zip combo) :=
      mem_subsAt.2 ⟨_, hpair, hfind, rfl⟩
    rcases hform with ⟨hnil, _⟩ | ⟨_, hcur⟩
    · have hnil2 : subsAt (parseEntriesFrom 0 lines) ln
          (param_names.zip combo) = [] := hnil
      have hsub2 : (pos, PyNum.str (combo.getD k (.i 0))) ∈
          subsAt (parseEntriesFrom 0 lines) ln (param_names.zip combo) := hsub
      rw [hnil2] at hsub2
      simp at hsub2
    · rw [hcur, valuesOf_normLine (setAll_good hgood)]
      apply getD_setAll_unique hsub
      · -- any substitution landing on this position carries the same value
        intro pv hpv hppos
        obtain ⟨nv, hnv, hf, hs⟩ := mem_subsAt.1 hpv
        rw [hppos] at hf
        have hname : nv.1 = param_names.getD k [] :=
          entry_name_unique (pmFind_mem hf) (pmFind_mem hfind)
        obtain ⟨j, hj, hjc, hn1, hn2⟩ := mem_zip_index hnv
        have hjk : j = k := nodup_getD_inj hnd hj hk (hn1 ▸ hname)
        rw [hs, hn2, hjk]
      · -- the position is inside the token list
        obtain ⟨_, _, hposlen, _, _⟩ := pmFind_entry_props hfind
        exact hposlen

/-- C1 witness: the round trip on the single template line 10 20 ! a, b
with the combination a = 12, b = 20. -/
theorem C1_witness :
    ∃ new,
      modify_input [['1', '0', ' ', '2', '0', ' ', '!', ' ', 'a', ',', ' ', 'b']]
          (parse_input_file
            [['1', '0', ' ', '2', '0', ' ', '!', ' ', 'a', ',', ' ', 'b']]).2
          [.i 12, .i 20] [['a'], ['b']] = some new ∧
      (parse_input_file new).2 =
        (parse_input_file
          [['1', '0', ' ', '2', '0', ' ', '!', ' ', 'a', ',', ' ', 'b']]).2 ∧
      ∀ k, k < ([['a'], ['b']] : List Line).length → ∀ ln pos,
        pmFind (parse_input_file
            [['1', '0', ' ', '2', '0', ' ', '!', ' ', 'a', ',', ' ', 'b']]).2
          (([['a'], ['b']] : List Line).getD k []) = some (ln, pos) →
        (valuesOf (new.getD ln [])).getD pos [] =
          PyNum.str (([.i 12, .i 20] : List PyNum).getD k (.i 0)) := by
  apply C1_round_trip
  · decide
  · decide
  · intro n hn
    have hpm : (parse_input_file
        [['1', '0', ' ', '2', '0', ' ', '!', ' ', 'a', ',', ' ', 'b']]).2 =
        [(['a'], 0, 0), (['b'], 0, 1)] := by
      simp +decide [parse_input_file, parseEntriesFrom, lineEntries, lineGuard,
        namesOf, valuesOf, commentOf, splitC, pyWords, isPySpace, pyStrip,
        stripCommas]
    rw [hpm]
    rcases List.mem_cons.1 hn with rfl | hn2
    · decide
    · rcases List.mem_singleton.1 hn2 with rfl
      decide
